import Mathlib

/-!
# HalfKP input features (src/nnue/features/half_kp.cpp)

A shallow embedding of the HalfKP feature-index code of Fairy-Stockfish:
square orientation, the two `make_index` entry points, the enumeration of the
active indices of a position and the incremental list of changed indices.

Squares (`Square`), files and ranks are C++ `int` enums and are modelled by `Int`;
piece types (`PieceType`) are enum values modelled by `Nat`, of which only equality
with the king type matters; `IndexType` is `std::uint32_t` and is modelled by an
`Int` reduced modulo `2^32`; a `Bitboard` is an unsigned machine word and is
modelled by a `Nat` whose binary digits are the squares.  Everything the file takes from other
translation units (square encoding, lookup tables, the position's queries) is
a field of `Params` or of `Position`.
-/

namespace HalfKP

/-! ## Data model -/

/-- Side to move / perspective: `WHITE` is the first colour, `BLACK` the second. -/
inductive Color where
  | WHITE
  | BLACK
deriving DecidableEq, Repr

/-- The opposite colour (`~c` in the source tree). -/
def Color.flip : Color → Color
  | .WHITE => .BLACK
  | .BLACK => .WHITE

/-- Append-only list of feature indices (`IndexList`, a list of `IndexType` values). -/
abbrev IndexList := List Int

/-- Modelled from the spec: the `Piece` enum is declared outside half_kp.cpp; a piece
is a (colour, piece-type) pair. -/
structure Piece where
  color : Color
  type : Nat
deriving DecidableEq, Repr

/-- Modelled from the spec: `type_of` is declared outside half_kp.cpp; it is the
piece-type component of the (colour, piece-type) pair. -/
def type_of (pc : Piece) : Nat := pc.type

/-- The two index geometries: the standard board and the alternate (shogi) discipline. -/
inductive NnueArchitecture where
  | NNUE_CHESS
  | NNUE_SHOGI
deriving DecidableEq, Repr

/-- Constants and lookup tables that half_kp.cpp reads but does not define. -/
structure Params where
  /-- Number of files of the square encoding: a square is `file + FILE_NB * rank`. -/
  FILE_NB : Int
  /-- The "no square" value of change-record entries. -/
  SQ_NONE : Int
  /-- Number of binary digits of a `Bitboard`. -/
  BB_BITS : Nat
  /-- Bitboard of the eighth rank. -/
  Rank8BB : Nat
  /-- Block size of the standard architecture. -/
  PS_END : Int
  /-- Block size of the shogi architecture. -/
  SHOGI_PS_END : Int
  /-- Base offsets of board pieces, standard architecture. -/
  kpp_board_index : Color → Piece → Int
  /-- Base offsets of board pieces, shogi architecture. -/
  shogi_kpp_board_index : Color → Piece → Int
  /-- Base offsets of hand pieces. -/
  shogi_kpp_hand_index : Color → Nat → Int

/-- Modelled from the spec: `FILE_H` is declared outside half_kp.cpp; it is the last
file of the canonical 8x8 board, files being counted from 0. -/
def FILE_H : Int := 7

/-- Modelled from the spec: `RANK_8` is declared outside half_kp.cpp; it is the last
rank of the canonical 8x8 board, ranks being counted from 0. -/
def RANK_8 : Int := 7

/-- Modelled from the spec: `FILE_MAX` is declared outside half_kp.cpp; it is the last
file of the square encoding, whose files beyond `FILE_H` are the "unused file padding"
that compaction discards. -/
def FILE_MAX (t : Params) : Int := t.FILE_NB - 1

/-- Modelled from the spec: `SQUARE_NB_CHESS` is declared outside half_kp.cpp; it is the
number of squares of the canonical 8x8 board. -/
def SQUARE_NB_CHESS : Int := 64

/-- Modelled from the spec: `SQUARE_NB_SHOGI` is declared outside half_kp.cpp; it is the
number of squares of the fixed 9x9 board, so that `rotate` is `last_index - index`. -/
def SQUARE_NB_SHOGI : Int := 81

/-- Modelled from the spec: `rank_of` is declared outside half_kp.cpp; a square is
`file + FILE_NB * rank`, so the rank is the (C++, truncating) quotient by `FILE_NB`. -/
def rank_of (t : Params) (s : Int) : Int := Int.tdiv s t.FILE_NB

/-- Modelled from the spec: `file_of` is declared outside half_kp.cpp; the file is the
(C++, truncating) remainder of the square by `FILE_NB`. -/
def file_of (t : Params) (s : Int) : Int := Int.tmod s t.FILE_NB

/-- Modelled from the spec: `flip_file` is declared outside half_kp.cpp; it flips a
square across the file axis relative to the board's configured last file, sending
file `f` to `maxFile - f` on the same rank. -/
def flip_file (t : Params) (s : Int) (maxFile : Int) : Int :=
  s + maxFile - 2 * file_of t s

/-- Modelled from the spec: `flip_rank` is declared outside half_kp.cpp; it flips a
square across the rank axis relative to the board's configured last rank, sending
rank `r` to `maxRank - r` on the same file. -/
def flip_rank (t : Params) (s : Int) (maxRank : Int) : Int :=
  s + t.FILE_NB * (maxRank - 2 * rank_of t s)

/-- The queries half_kp.cpp makes of a position. -/
structure Position where
  nnue_architecture : NnueArchitecture
  max_file : Int
  max_rank : Int
  /-- Flag region of a colour (`pos.capture_the_flag(c)`). -/
  capture_the_flag : Color → Nat
  /-- The piece type that anchors the features (`pos.nnue_king()`). -/
  nnue_king : Nat
  /-- Square of the piece of the given colour and type (`pos.square(c, pt)`). -/
  square : Color → Nat → Int
  /-- All occupied squares (`pos.pieces()`). -/
  pieces : Nat
  /-- Squares occupied by the given piece type, either colour (`pos.pieces(pt)`). -/
  pieces_of : Nat → Nat
  piece_on : Int → Piece
  piece_drops : Bool
  /-- The variant's piece types in iteration order (`pos.piece_types()`). -/
  piece_types : List Nat
  count_in_hand : Color → Nat → Nat

/-- Change record of a move: `dirty_num` entries in three parallel arrays. -/
structure DirtyPiece where
  dirty_num : Nat
  piece : Nat → Piece
  from_sq : Nat → Int
  to_sq : Nat → Int

/-! ## Bitboards -/

/-- Bitwise complement of a `BB_BITS`-digit word. -/
def bb_not (t : Params) (b : Nat) : Nat :=
  (2 ^ t.BB_BITS - 1) ^^^ (b % 2 ^ t.BB_BITS)

/-- Modelled from the spec: `lsb` is declared outside half_kp.cpp; the position of the
lowest set digit, found by halving at most `fuel` times. -/
def lsb_aux : Nat → Nat → Nat
  | 0, _ => 0
  | fuel + 1, b => if b % 2 = 1 then 0 else lsb_aux fuel (b / 2) + 1

/-- Modelled from the spec: `lsb` is declared outside half_kp.cpp; the lowest square of
a non-empty bitboard (the traversal is by increasing square index). -/
def lsb (b : Nat) : Nat := lsb_aux b b

/-- Modelled from the spec: `pop_lsb` is declared outside half_kp.cpp; it returns the
lowest square of the bitboard and clears it (`b &= b - 1`). -/
def pop_lsb (b : Nat) : Int × Nat :=
  ((lsb b : Nat), b &&& (b - 1))

/-! ## Orientation -/

/-- Map square to numbering on 8x8 board. -/
def map_to_standard_board (t : Params) (s : Int) : Int :=
  s - rank_of t s * (FILE_MAX t - FILE_H)

/-- Reverse a square within the 81 squares of the 9x9 board. -/
def rotate (s : Int) : Int :=
  SQUARE_NB_SHOGI - 1 - s

/-- Re-encode a square of the 12-file layout as a 9x9 index. -/
def toShogiSquare (s : Int) : Int :=
  (8 - Int.tmod s 12) * 9 + 8 - Int.tdiv s 12

/-- Orient a square according to perspective (rotates by 180 for black). -/
def orient (t : Params) (pos : Position) (perspective : Color) (s : Int) : Int :=
  if pos.nnue_architecture = NnueArchitecture.NNUE_SHOGI then
    if perspective = Color.WHITE then toShogiSquare s else rotate (toShogiSquare s)
  else
    map_to_standard_board t
      (if perspective = Color.WHITE ∨ (pos.capture_the_flag Color.BLACK &&& t.Rank8BB) ≠ 0 then s
       else flip_rank t (flip_file t s pos.max_file) pos.max_rank)

/-! ## Feature indices -/

/-- Conversion to `IndexType` (`std::uint32_t`). -/
def toIndexType (x : Int) : Int := x % 4294967296

/-- Index of a feature for a given king position and another piece on some square. -/
def make_index (t : Params) (pos : Position) (perspective : Color) (s : Int) (pc : Piece)
    (ksq : Int) : Int :=
  if pos.nnue_architecture = NnueArchitecture.NNUE_SHOGI then
    toIndexType (orient t pos perspective s + t.shogi_kpp_board_index perspective pc
      + t.SHOGI_PS_END * ksq)
  else
    toIndexType (orient t pos perspective s + t.kpp_board_index perspective pc + t.PS_END * ksq)

/-- Index of a feature for a given king position and hand piece. -/
def make_index_hand (t : Params) (perspective : Color) (c : Color) (hand_index : Int)
    (pt : Nat) (ksq : Int) : Int :=
  let color := if c = perspective then Color.WHITE else Color.BLACK
  toIndexType (hand_index + t.shogi_kpp_hand_index color pt + t.SHOGI_PS_END * ksq)

/-! ## Active and changed indices -/

/-- Modelled from the spec: `IndexList::push_back` is declared outside half_kp.cpp; the
index list is "an append-only ordered sequence of feature indices". -/
def push_back (l : IndexList) (x : Int) : IndexList := l ++ [x]

/-- The loop `while (bb) { s = pop_lsb(&bb); active->push_back(f s); }`; every round
clears one digit of `bb`, so `fuel = bb` rounds are always enough. -/
def pop_loop (f : Int → Int) : Nat → Nat → IndexList → IndexList
  | 0, _, active => active
  | fuel + 1, bb, active =>
    if bb = 0 then active
    else pop_loop f fuel (pop_lsb bb).2 (push_back active (f (pop_lsb bb).1))

/-- The oriented square of the perspective's king: the value `ksq` that both entry
points compute once per call. -/
def king_square (t : Params) (pos : Position) (perspective : Color) : Int :=
  orient t pos perspective (pos.square perspective pos.nnue_king)

/-- The hand loops of `AppendActiveIndices`: colours, piece types, hand slots. -/
def append_hand_indices (t : Params) (pos : Position) (perspective : Color) (ksq : Int)
    (active : IndexList) : IndexList :=
  [Color.WHITE, Color.BLACK].foldl (fun active c =>
    pos.piece_types.foldl (fun active pt =>
      (List.range (pos.count_in_hand c pt)).foldl (fun active i =>
        push_back active (make_index_hand t perspective c (i : Nat) pt ksq)) active) active) active

/-- Get a list of indices for active features. -/
def AppendActiveIndices (t : Params) (pos : Position) (perspective : Color)
    (active : IndexList) : IndexList :=
  let ksq := orient t pos perspective (pos.square perspective pos.nnue_king)
  let bb := pos.pieces &&& bb_not t (pos.pieces_of pos.nnue_king)
  let active := pop_loop (fun s => make_index t pos perspective s (pos.piece_on s) ksq) bb bb active
  if pos.piece_drops then append_hand_indices t pos perspective ksq active else active

/-- One round of the loop of `AppendChangedIndices`, for entry `i` of the record. -/
def changed_step (t : Params) (pos : Position) (dp : DirtyPiece) (perspective : Color)
    (ksq : Int) (ra : IndexList × IndexList) (i : Nat) : IndexList × IndexList :=
  let pc := dp.piece i
  if type_of pc = pos.nnue_king then ra
  else
    let removed :=
      if dp.from_sq i ≠ t.SQ_NONE then
        push_back ra.1 (make_index t pos perspective (dp.from_sq i) pc ksq)
      else ra.1
    let added :=
      if dp.to_sq i ≠ t.SQ_NONE then
        push_back ra.2 (make_index t pos perspective (dp.to_sq i) pc ksq)
      else ra.2
    (removed, added)

/-- Get a list of indices for recently changed features. -/
def AppendChangedIndices (t : Params) (pos : Position) (dp : DirtyPiece) (perspective : Color)
    (removed added : IndexList) : IndexList × IndexList :=
  let ksq := orient t pos perspective (pos.square perspective pos.nnue_king)
  (List.range dp.dirty_num).foldl (changed_step t pos dp perspective ksq) (removed, added)

/-! ## Specification-side definitions -/

/-- Entry `i` of a change record as a triple (piece, from, to). -/
def DirtyPiece.entry (dp : DirtyPiece) (i : Nat) : Piece × Int × Int :=
  (dp.piece i, dp.from_sq i, dp.to_sq i)

/-- The entries of a change record, in record order. -/
def DirtyPiece.entries (dp : DirtyPiece) : List (Piece × Int × Int) :=
  (List.range dp.dirty_num).map dp.entry

/-- The change record holding the given entries, in order. -/
def DirtyPiece.ofEntries (l : List (Piece × Int × Int)) : DirtyPiece where
  dirty_num := l.length
  piece := fun i => (l.getD i (⟨Color.WHITE, 0⟩, 0, 0)).1
  from_sq := fun i => (l.getD i (⟨Color.WHITE, 0⟩, 0, 0)).2.1
  to_sq := fun i => (l.getD i (⟨Color.WHITE, 0⟩, 0, 0)).2.2

/-- The change record with the single entry (piece, from, to). -/
def DirtyPiece.single (pc : Piece) (f t : Int) : DirtyPiece :=
  DirtyPiece.ofEntries [(pc, f, t)]

/-- The change record with every entry of the king type deleted. -/
def DirtyPiece.without_kings (pos : Position) (dp : DirtyPiece) : DirtyPiece :=
  DirtyPiece.ofEntries (dp.entries.filter (fun e => decide (type_of e.1 ≠ pos.nnue_king)))

/-- The removed list as the spec words it: in record order, the index of the from
square of every entry whose piece is not of the king type and whose from square is
not `SQ_NONE`, with the oriented king square of the given position. -/
def removed_spec (t : Params) (pos : Position) (dp : DirtyPiece) (perspective : Color) :
    IndexList :=
  ((List.range dp.dirty_num).filter (fun i =>
      decide (type_of (dp.piece i) ≠ pos.nnue_king) && decide (dp.from_sq i ≠ t.SQ_NONE))).map
    (fun i => make_index t pos perspective (dp.from_sq i) (dp.piece i)
      (orient t pos perspective (pos.square perspective pos.nnue_king)))

/-- The added list as the spec words it: the same list built from the to squares. -/
def added_spec (t : Params) (pos : Position) (dp : DirtyPiece) (perspective : Color) :
    IndexList :=
  ((List.range dp.dirty_num).filter (fun i =>
      decide (type_of (dp.piece i) ≠ pos.nnue_king) && decide (dp.to_sq i ≠ t.SQ_NONE))).map
    (fun i => make_index t pos perspective (dp.to_sq i) (dp.piece i)
      (orient t pos perspective (pos.square perspective pos.nnue_king)))

/-- No end-condition flag is active: the flag region of the second colour does not
meet the eighth rank (the test `pos.capture_the_flag(BLACK) & Rank8BB` of `orient`). -/
def flag_inactive (t : Params) (pos : Position) : Prop :=
  (pos.capture_the_flag Color.BLACK &&& t.Rank8BB) = 0

instance (t : Params) (pos : Position) : Decidable (flag_inactive t pos) := by
  unfold flag_inactive
  infer_instance

/-- A valid square of the 9x9 board in its 12-file layout: `file + 12 * rank` with
file and rank between 0 and 8. -/
def valid_shogi_square (s : Int) : Prop :=
  0 ≤ s ∧ Int.tmod s 12 ≤ 8 ∧ Int.tdiv s 12 ≤ 8

instance (s : Int) : Decidable (valid_shogi_square s) := by
  unfold valid_shogi_square
  infer_instance

/-- A valid square of a standard board: its file is at most `max_file`, its rank at
most `max_rank`, and the board's files fit the square encoding. -/
def valid_standard_square (t : Params) (pos : Position) (s : Int) : Prop :=
  0 ≤ s ∧ file_of t s ≤ pos.max_file ∧ pos.max_file < t.FILE_NB ∧ rank_of t s ≤ pos.max_rank

instance (t : Params) (pos : Position) (s : Int) :
    Decidable (valid_standard_square t pos s) := by
  unfold valid_standard_square
  infer_instance

/-- A valid board square of the position, in either architecture. -/
def valid_square (t : Params) (pos : Position) (s : Int) : Prop :=
  if pos.nnue_architecture = NnueArchitecture.NNUE_SHOGI then valid_shogi_square s
  else valid_standard_square t pos s

instance (t : Params) (pos : Position) (s : Int) : Decidable (valid_square t pos s) := by
  unfold valid_square
  infer_instance

/-- The point reflection of a square across both axes: file `f` goes to
`max_file - f` and rank `r` to `max_rank - r`; on the 9x9 board of the shogi
architecture `f` goes to `8 - f` and `r` to `8 - r`. -/
def point_reflect (t : Params) (pos : Position) (s : Int) : Int :=
  if pos.nnue_architecture = NnueArchitecture.NNUE_SHOGI then
    (8 - Int.tmod s 12) + 12 * (8 - Int.tdiv s 12)
  else
    (pos.max_file - file_of t s) + t.FILE_NB * (pos.max_rank - rank_of t s)

/-- Block size of the position's architecture: `SHOGI_PS_END` or `PS_END`. -/
def block_size (t : Params) (pos : Position) : Int :=
  if pos.nnue_architecture = NnueArchitecture.NNUE_SHOGI then t.SHOGI_PS_END else t.PS_END

/-- Number of king squares (and of oriented squares) of the position's architecture. -/
def king_square_nb (pos : Position) : Int :=
  if pos.nnue_architecture = NnueArchitecture.NNUE_SHOGI then SQUARE_NB_SHOGI
  else SQUARE_NB_CHESS

/-- Size of the feature space: block size times number of king squares. -/
def FEATURE_SPACE_SIZE (t : Params) (pos : Position) : Int :=
  block_size t pos * king_square_nb pos

/-- The board-piece base-offset table that `make_index` reads for the position. -/
def board_base (t : Params) (pos : Position) : Color → Piece → Int :=
  if pos.nnue_architecture = NnueArchitecture.NNUE_SHOGI then t.shogi_kpp_board_index
  else t.kpp_board_index

/-- A piece that can be the subject of a feature: of a piece type of the variant
other than the king type. -/
def subject_piece (pos : Position) (pc : Piece) : Prop :=
  type_of pc ∈ pos.piece_types ∧ type_of pc ≠ pos.nnue_king

instance (pos : Position) (pc : Piece) : Decidable (subject_piece pos pc) := by
  unfold subject_piece
  infer_instance

/-- Modelled from the spec: the lookup tables are defined outside half_kp.cpp; "the
lookup table encodes, for each (perspective, piece) pair, a fixed base offset that
partitions the index space so that no two distinct piece-kinds collide for the same
oriented square and king square".  Every non-king piece kind owns, for each
perspective, a block of one index per oriented square inside `[0, block size)`, and
the blocks of two distinct piece kinds do not overlap. -/
def table_partitions (t : Params) (pos : Position) : Prop :=
  ∀ (p : Color) (pc : Piece), subject_piece pos pc →
    0 ≤ board_base t pos p pc
      ∧ board_base t pos p pc + king_square_nb pos ≤ block_size t pos
      ∧ ∀ pc' : Piece, subject_piece pos pc' → pc ≠ pc' →
          board_base t pos p pc + king_square_nb pos ≤ board_base t pos p pc'
            ∨ board_base t pos p pc' + king_square_nb pos ≤ board_base t pos p pc

/-- The board fits the square numbering of its architecture: at most 8 files and 8
ranks in the standard architecture (the 9x9 board of the shogi architecture is fixed
by `toShogiSquare`). -/
def board_fits (pos : Position) : Prop :=
  pos.nnue_architecture ≠ NnueArchitecture.NNUE_SHOGI →
    pos.max_file ≤ FILE_H ∧ pos.max_rank ≤ RANK_8

instance (pos : Position) : Decidable (board_fits pos) := by
  unfold board_fits
  infer_instance

/-- The occupied squares not holding a piece of the king type (of either colour), in
increasing square order. -/
def board_squares (t : Params) (pos : Position) : List Nat :=
  (List.range t.BB_BITS).filter (fun s =>
    pos.pieces.testBit s && !(pos.pieces_of pos.nnue_king).testBit s)

/-- One board-piece index per occupied non-king square, in increasing square order. -/
def board_indices (t : Params) (pos : Position) (perspective : Color) : IndexList :=
  (board_squares t pos).map (fun s =>
    make_index t pos perspective (s : Nat) (pos.piece_on (s : Nat)) (king_square t pos perspective))

/-- The hand-piece indices: for colour `WHITE` then `BLACK` and each piece type of the
variant in order, one index per hand slot `0 .. count_in_hand(c, pt) - 1`. -/
def hand_indices (t : Params) (pos : Position) (perspective : Color) : IndexList :=
  [Color.WHITE, Color.BLACK].flatMap (fun c =>
    pos.piece_types.flatMap (fun pt =>
      (List.range (pos.count_in_hand c pt)).map (fun i =>
        make_index_hand t perspective c (i : Nat) pt (king_square t pos perspective))))

/-- Total number of pieces held in hand by both colours. -/
def hand_total (pos : Position) : Nat :=
  ([Color.WHITE, Color.BLACK].map (fun c =>
    (pos.piece_types.map (fun pt => pos.count_in_hand c pt)).sum)).sum

/-- The board as the bitboards and `piece_on` show it: the occupied squares, in
increasing order, each with the piece on it. -/
def occupancy (t : Params) (pos : Position) : List (Int × Piece) :=
  ((List.range t.BB_BITS).filter (fun s => pos.pieces.testBit s)).map
    (fun (s : Nat) => ((s : Int), pos.piece_on (s : Int)))

/-- The (from square, piece) pairs of the entries of a record that have a from square. -/
def record_from (t : Params) (dp : DirtyPiece) : List (Int × Piece) :=
  (dp.entries.filter (fun e => decide (e.2.1 ≠ t.SQ_NONE))).map (fun e => (e.2.1, e.1))

/-- The (to square, piece) pairs of the entries of a record that have a to square. -/
def record_to (t : Params) (dp : DirtyPiece) : List (Int × Piece) :=
  (dp.entries.filter (fun e => decide (e.2.2 ≠ t.SQ_NONE))).map (fun e => (e.2.2, e.1))

/-- Modelled from the spec: the code that makes a move and fills its change record is
outside half_kp.cpp; the record is "a fixed-capacity ordered list of (piece,
from-square-or-none, to-square-or-none) entries describing exactly what changed in the
most recent move".  Every entry with a from square names a piece that stood there
before the move, and the board after the move is the board before it without the
(from, piece) pairs and with the (to, piece) pairs of the record. -/
def record_describes (t : Params) (before after : Position) (dp : DirtyPiece) : Prop :=
  (∀ e ∈ record_from t dp, e ∈ occupancy t before)
    ∧ (∀ e ∈ occupancy t after,
        (e ∈ occupancy t before ∧ e ∉ record_from t dp) ∨ e ∈ record_to t dp)
    ∧ (∀ e ∈ occupancy t before, e ∉ record_from t dp → e ∈ occupancy t after)
    ∧ (∀ e ∈ record_to t dp, e ∈ occupancy t after)

instance (t : Params) (before after : Position) (dp : DirtyPiece) :
    Decidable (record_describes t before after dp) := by
  unfold record_describes
  infer_instance

/-- Modelled from the spec: the position class is outside half_kp.cpp; its query for
the "squares occupied by a given piece-type" agrees with the "piece identity lookup by
square": an occupied square is in `pieces(nnue_king)` exactly when the piece on it is
of the king type. -/
def king_bitboard_ok (t : Params) (pos : Position) : Prop :=
  ∀ s, s < t.BB_BITS → pos.pieces.testBit s = true →
    ((pos.pieces_of pos.nnue_king).testBit s = true
      ↔ type_of (pos.piece_on (s : Nat)) = pos.nnue_king)

instance (t : Params) (pos : Position) : Decidable (king_bitboard_ok t pos) := by
  unfold king_bitboard_ok
  infer_instance

/-- Two positions of one variant: same architecture, board extents, flag regions,
king type, drop rule and piece types. -/
def same_variant (before after : Position) : Prop :=
  after.nnue_architecture = before.nnue_architecture
    ∧ after.max_file = before.max_file
    ∧ after.max_rank = before.max_rank
    ∧ (∀ c, after.capture_the_flag c = before.capture_the_flag c)
    ∧ after.nnue_king = before.nnue_king
    ∧ after.piece_drops = before.piece_drops
    ∧ after.piece_types = before.piece_types

/-- The move left every hand count unchanged. -/
def same_hands (before after : Position) : Prop :=
  ∀ c pt, after.count_in_hand c pt = before.count_in_hand c pt

/-- Diff equivalence as the spec states it: as sets, the active indices after the move
are the active indices before the move minus `removed`, plus `added`, where
(`removed`, `added`) is `AppendChangedIndices` on the position after the move. -/
def diff_equivalent (t : Params) (before after : Position) (dp : DirtyPiece)
    (perspective : Color) : Prop :=
  ∀ x : Int, x ∈ AppendActiveIndices t after perspective []
    ↔ (x ∈ AppendActiveIndices t before perspective []
          ∧ x ∉ (AppendChangedIndices t after dp perspective [] []).1)
        ∨ x ∈ (AppendChangedIndices t after dp perspective [] []).2

/-- Number of entries of a record whose piece is not of the king type. -/
def nonking_count (pos : Position) (dp : DirtyPiece) : Nat :=
  ((List.range dp.dirty_num).filter
    (fun i => decide (type_of (dp.piece i) ≠ pos.nnue_king))).length

/-- The part of a board-piece index that does not depend on the king square: the
oriented square plus the base offset of the (perspective, piece) pair. -/
def board_offset (t : Params) (pos : Position) (perspective : Color) (s : Int) (pc : Piece) :
    Int :=
  orient t pos perspective s + board_base t pos perspective pc

/-- The part of a hand-piece index that does not depend on the king square: the hand
slot plus the base offset of the owner (relative to the perspective) and piece type. -/
def hand_offset (t : Params) (perspective c : Color) (hand_index : Int) (pt : Nat) : Int :=
  hand_index + t.shogi_kpp_hand_index (if c = perspective then Color.WHITE else Color.BLACK) pt

/-- Modelled from the spec: the base-offset tables are defined outside half_kp.cpp; they
place every feature inside its king-square block ("every index produced by the
Calculator lies strictly inside this range").  For the active features of a position:
the offset of every non-king piece on the board and of every occupied hand slot lies
in `[0, block size)`. -/
def offsets_in_block (t : Params) (pos : Position) (perspective : Color) : Prop :=
  (∀ s ∈ board_squares t pos,
      0 ≤ board_offset t pos perspective (s : Nat) (pos.piece_on (s : Nat))
        ∧ board_offset t pos perspective (s : Nat) (pos.piece_on (s : Nat)) < block_size t pos)
    ∧ (∀ c ∈ [Color.WHITE, Color.BLACK], ∀ pt ∈ pos.piece_types,
        ∀ i ∈ List.range (pos.count_in_hand c pt),
          0 ≤ hand_offset t perspective c (i : Nat) pt
            ∧ hand_offset t perspective c (i : Nat) pt < block_size t pos)

instance (t : Params) (pos : Position) (perspective : Color) :
    Decidable (offsets_in_block t pos perspective) := by
  unfold offsets_in_block
  infer_instance

/-! ## Example builds and positions -/

/-- Piece-type numbers used by the examples. -/
def PAWN : Nat := 1

/-- Piece-type number of the king in the examples. -/
def KING : Nat := 6

/-- Base offsets of the 8x8 layout: one block of 64 squares per piece kind, own pieces
before the opponent's (`PS_W_PAWN = 1`, `PS_B_PAWN = 65`, ..., `PS_END = 641`);
piece kinds without a block get `PS_NONE = 0`. -/
def chess_board_index (p : Color) (pc : Piece) : Int :=
  if 1 ≤ pc.type ∧ pc.type ≤ 5 then
    1 + 64 * (2 * ((pc.type : Int) - 1) + (if pc.color = p then 0 else 1))
  else 0

/-- Base offsets of the 9x9 layout for the first five piece types: blocks of 81
squares after the hand block of 90 indices, own pieces before the opponent's (`90`,
`171`, ...); piece kinds without a block get `0`. -/
def shogi_board_index (p : Color) (pc : Piece) : Int :=
  if 1 ≤ pc.type ∧ pc.type ≤ 5 then
    90 + 81 * (2 * ((pc.type : Int) - 1) + (if pc.color = p then 0 else 1))
  else 0

/-- Base offsets of hand pieces for the first five piece types: own hand before the
opponent's (pawn `1` and `20`, then blocks of five slots from `39`). -/
def shogi_hand_index (c : Color) (pt : Nat) : Int :=
  if pt = 1 then (if c = Color.WHITE then 1 else 20)
  else if 2 ≤ pt ∧ pt ≤ 5 then
    39 + 10 * ((pt : Int) - 2) + (if c = Color.WHITE then 0 else 5)
  else 0

/-- A build whose squares have 12 files per rank (large boards, 128-digit bitboards). -/
def large_params : Params where
  FILE_NB := 12
  SQ_NONE := 120
  BB_BITS := 128
  Rank8BB := (2 ^ 12 - 1) * 2 ^ 84
  PS_END := 641
  SHOGI_PS_END := 1548
  kpp_board_index := chess_board_index
  shogi_kpp_board_index := shogi_board_index
  shogi_kpp_hand_index := shogi_hand_index

/-- A build whose squares have 8 files per rank (64-digit bitboards). -/
def small_params : Params where
  FILE_NB := 8
  SQ_NONE := 64
  BB_BITS := 64
  Rank8BB := (2 ^ 8 - 1) * 2 ^ 56
  PS_END := 641
  SHOGI_PS_END := 1548
  kpp_board_index := chess_board_index
  shogi_kpp_board_index := shogi_board_index
  shogi_kpp_hand_index := shogi_hand_index

/-- The 8x8 scenario of the specification: white king on e1, black king on e8 and a
single white pawn on the given rank of the e-file (rank 1 is e2, rank 3 is e4). -/
def pawn_position (t : Params) (pawn_rank : Nat) : Position where
  nnue_architecture := NnueArchitecture.NNUE_CHESS
  max_file := 7
  max_rank := 7
  capture_the_flag := fun _ => 0
  nnue_king := KING
  square := fun c _ => if c = Color.WHITE then 4 else 4 + t.FILE_NB * 7
  pieces := 2 ^ 4 + 2 ^ (4 + t.FILE_NB.toNat * pawn_rank) + 2 ^ (4 + t.FILE_NB.toNat * 7)
  pieces_of := fun pt =>
    if pt = KING then 2 ^ 4 + 2 ^ (4 + t.FILE_NB.toNat * 7)
    else if pt = PAWN then 2 ^ (4 + t.FILE_NB.toNat * pawn_rank) else 0
  piece_on := fun s =>
    if s = 4 then ⟨Color.WHITE, KING⟩
    else if s = 4 + t.FILE_NB * 7 then ⟨Color.BLACK, KING⟩ else ⟨Color.WHITE, PAWN⟩
  piece_drops := false
  piece_types := [1, 2, 3, 4, 5, 6]
  count_in_hand := fun _ _ => 0

/-- An empty 9x9 position of the shogi architecture with the kings on their home
squares, used where only the geometry matters. -/
def shogi_position : Position where
  nnue_architecture := NnueArchitecture.NNUE_SHOGI
  max_file := 8
  max_rank := 8
  capture_the_flag := fun _ => 0
  nnue_king := KING
  square := fun c _ => if c = Color.WHITE then 4 else 4 + 12 * 8
  pieces := 2 ^ 4 + 2 ^ (4 + 12 * 8)
  pieces_of := fun pt => if pt = KING then 2 ^ 4 + 2 ^ (4 + 12 * 8) else 0
  piece_on := fun s => if s = 4 then ⟨Color.WHITE, KING⟩ else ⟨Color.BLACK, KING⟩
  piece_drops := true
  piece_types := [1, 2, 3, 4, 5, 6]
  count_in_hand := fun _ _ => 0

/-- A 9x9 position of a drop variant before a capture: kings on e1 (square 4) and e9
(square 100), a white pawn on e4 (square 40), a black pawn on e5 (square 52), empty
hands. -/
def capture_before : Position where
  nnue_architecture := NnueArchitecture.NNUE_SHOGI
  max_file := 8
  max_rank := 8
  capture_the_flag := fun _ => 0
  nnue_king := KING
  square := fun c _ => if c = Color.WHITE then 4 else 100
  pieces := 2 ^ 4 + 2 ^ 40 + 2 ^ 52 + 2 ^ 100
  pieces_of := fun pt =>
    if pt = KING then 2 ^ 4 + 2 ^ 100 else if pt = PAWN then 2 ^ 40 + 2 ^ 52 else 0
  piece_on := fun s =>
    if s = 4 then ⟨Color.WHITE, KING⟩
    else if s = 100 then ⟨Color.BLACK, KING⟩
    else if s = 40 then ⟨Color.WHITE, PAWN⟩ else ⟨Color.BLACK, PAWN⟩
  piece_drops := true
  piece_types := [1, 2, 3, 4, 5, 6]
  count_in_hand := fun _ _ => 0

/-- The position after the white pawn has captured the black pawn on e5: the pawn
stands on square 52 and white holds one pawn in hand. -/
def capture_after : Position where
  nnue_architecture := NnueArchitecture.NNUE_SHOGI
  max_file := 8
  max_rank := 8
  capture_the_flag := fun _ => 0
  nnue_king := KING
  square := fun c _ => if c = Color.WHITE then 4 else 100
  pieces := 2 ^ 4 + 2 ^ 52 + 2 ^ 100
  pieces_of := fun pt =>
    if pt = KING then 2 ^ 4 + 2 ^ 100 else if pt = PAWN then 2 ^ 52 else 0
  piece_on := fun s =>
    if s = 4 then ⟨Color.WHITE, KING⟩
    else if s = 100 then ⟨Color.BLACK, KING⟩ else ⟨Color.WHITE, PAWN⟩
  piece_drops := true
  piece_types := [1, 2, 3, 4, 5, 6]
  count_in_hand := fun c pt => if c = Color.WHITE ∧ pt = PAWN then 1 else 0

/-- The change record of the capture: the pawn goes from 40 to 52, the captured pawn
leaves 52 with no to square. -/
def capture_record : DirtyPiece :=
  DirtyPiece.ofEntries
    [(⟨Color.WHITE, PAWN⟩, 40, 52), (⟨Color.BLACK, PAWN⟩, 52, large_params.SQ_NONE)]

/-- The 8x8 scenario in a drop variant of the standard architecture: white king on e1,
black king on e8, a white pawn on e2, and one pawn in white's hand. -/
def drops_position : Position where
  nnue_architecture := NnueArchitecture.NNUE_CHESS
  max_file := 7
  max_rank := 7
  capture_the_flag := fun _ => 0
  nnue_king := KING
  square := fun c _ => if c = Color.WHITE then 4 else 60
  pieces := 2 ^ 4 + 2 ^ 12 + 2 ^ 60
  pieces_of := fun pt =>
    if pt = KING then 2 ^ 4 + 2 ^ 60 else if pt = PAWN then 2 ^ 12 else 0
  piece_on := fun s =>
    if s = 4 then ⟨Color.WHITE, KING⟩
    else if s = 60 then ⟨Color.BLACK, KING⟩ else ⟨Color.WHITE, PAWN⟩
  piece_drops := true
  piece_types := [1, 2, 3, 4, 5, 6]
  count_in_hand := fun c pt => if c = Color.WHITE ∧ pt = PAWN then 1 else 0

/-- Piece-type number of the queen in the examples. -/
def QUEEN : Nat := 5

/-- A 10x10 board in the standard architecture on a 12-file build: white king on h8
(square 91), black king on e1 (square 4), a black queen on j10 (square 117). -/
def wide_position : Position where
  nnue_architecture := NnueArchitecture.NNUE_CHESS
  max_file := 9
  max_rank := 9
  capture_the_flag := fun _ => 0
  nnue_king := KING
  square := fun c _ => if c = Color.WHITE then 91 else 4
  pieces := 2 ^ 4 + 2 ^ 91 + 2 ^ 117
  pieces_of := fun pt =>
    if pt = KING then 2 ^ 4 + 2 ^ 91 else if pt = QUEEN then 2 ^ 117 else 0
  piece_on := fun s =>
    if s = 91 then ⟨Color.WHITE, KING⟩
    else if s = 4 then ⟨Color.BLACK, KING⟩ else ⟨Color.BLACK, QUEEN⟩
  piece_drops := false
  piece_types := [1, 2, 3, 4, 5, 6]
  count_in_hand := fun _ _ => 0

/-! ## Theorems -/

/-! ### The loop of `AppendChangedIndices` -/

/-- The loop over any list of entry numbers appends, to each list, the indices of the
entries it does not skip. -/
theorem changed_foldl_eq (t : Params) (pos : Position) (dp : DirtyPiece) (p : Color)
    (l : List Nat) (removed added : IndexList) :
    l.foldl (changed_step t pos dp p (king_square t pos p)) (removed, added)
      = (removed ++ (l.filter (fun i => decide (type_of (dp.piece i) ≠ pos.nnue_king)
            && decide (dp.from_sq i ≠ t.SQ_NONE))).map
            (fun i => make_index t pos p (dp.from_sq i) (dp.piece i) (king_square t pos p)),
         added ++ (l.filter (fun i => decide (type_of (dp.piece i) ≠ pos.nnue_king)
            && decide (dp.to_sq i ≠ t.SQ_NONE))).map
            (fun i => make_index t pos p (dp.to_sq i) (dp.piece i) (king_square t pos p))) := by
  induction l generalizing removed added with
  | nil => simp
  | cons i l ih =>
    rw [List.foldl_cons]
    by_cases hk : type_of (dp.piece i) = pos.nnue_king
    · have hs : changed_step t pos dp p (king_square t pos p) (removed, added) i
          = (removed, added) := by simp [changed_step, hk]
      rw [hs, ih]
      simp [List.filter_cons, hk]
    · by_cases hf : dp.from_sq i = t.SQ_NONE <;> by_cases ht : dp.to_sq i = t.SQ_NONE
      all_goals
        simp only [changed_step, hk, hf, ht, push_back, if_false, if_true, ne_eq,
          not_true_eq_false, not_false_eq_true]
        rw [ih]
        simp [List.filter_cons, hk, hf, ht]

/-- Closed form of `AppendChangedIndices` on arbitrary initial lists. -/
theorem AppendChangedIndices_eq (t : Params) (pos : Position) (dp : DirtyPiece) (p : Color)
    (removed added : IndexList) :
    AppendChangedIndices t pos dp p removed added
      = (removed ++ removed_spec t pos dp p, added ++ added_spec t pos dp p) := by
  unfold AppendChangedIndices removed_spec added_spec
  exact changed_foldl_eq t pos dp p _ removed added

/-- Reading a list back entry by entry gives the list. -/
theorem range_map_getD {α : Type} (l : List α) (d : α) :
    (List.range l.length).map (fun i => l.getD i d) = l := by
  apply List.ext_getElem
  · simp
  · intro n h1 h2
    simp [List.getD_eq_getElem?_getD, List.getElem?_eq_getElem h2]

/-- Filtering and mapping entry numbers is filtering and mapping the entries. -/
theorem filter_map_entries {α β : Type} (n : Nat) (e : Nat → α) (q : α → Bool) (g : α → β) :
    ((List.range n).filter (fun i => q (e i))).map (fun i => g (e i))
      = (((List.range n).map e).filter q).map g := by
  rw [List.filter_map, List.map_map]
  rfl

/-- The entries of the record built from a list are that list. -/
theorem entries_ofEntries (l : List (Piece × Int × Int)) :
    (DirtyPiece.ofEntries l).entries = l := by
  have h := range_map_getD l (⟨Color.WHITE, 0⟩, 0, 0)
  unfold DirtyPiece.entries
  have : (DirtyPiece.ofEntries l).entry = fun i => l.getD i (⟨Color.WHITE, 0⟩, 0, 0) := by
    funext i
    simp [DirtyPiece.entry, DirtyPiece.ofEntries]
  rw [this]
  exact h

/-- The removed list in terms of the entries of the record. -/
theorem removed_spec_entries (t : Params) (pos : Position) (dp : DirtyPiece) (p : Color) :
    removed_spec t pos dp p
      = (dp.entries.filter (fun e => decide (type_of e.1 ≠ pos.nnue_king)
            && decide (e.2.1 ≠ t.SQ_NONE))).map
          (fun e => make_index t pos p e.2.1 e.1 (king_square t pos p)) :=
  filter_map_entries dp.dirty_num dp.entry
    (fun e => decide (type_of e.1 ≠ pos.nnue_king) && decide (e.2.1 ≠ t.SQ_NONE))
    (fun e => make_index t pos p e.2.1 e.1 (king_square t pos p))

/-- The added list in terms of the entries of the record. -/
theorem added_spec_entries (t : Params) (pos : Position) (dp : DirtyPiece) (p : Color) :
    added_spec t pos dp p
      = (dp.entries.filter (fun e => decide (type_of e.1 ≠ pos.nnue_king)
            && decide (e.2.2 ≠ t.SQ_NONE))).map
          (fun e => make_index t pos p e.2.2 e.1 (king_square t pos p)) :=
  filter_map_entries dp.dirty_num dp.entry
    (fun e => decide (type_of e.1 ≠ pos.nnue_king) && decide (e.2.2 ≠ t.SQ_NONE))
    (fun e => make_index t pos p e.2.2 e.1 (king_square t pos p))

/-- Deleting the king-type entries changes neither list. -/
theorem spec_without_kings (t : Params) (pos : Position) (dp : DirtyPiece) (p : Color) :
    removed_spec t pos (dp.without_kings pos) p = removed_spec t pos dp p
      ∧ added_spec t pos (dp.without_kings pos) p = added_spec t pos dp p := by
  constructor
  · rw [removed_spec_entries, removed_spec_entries, DirtyPiece.without_kings, entries_ofEntries,
      List.filter_filter]
    congr 1
    apply List.filter_congr
    intro e _
    cases decide (type_of e.1 ≠ pos.nnue_king) <;> simp
  · rw [added_spec_entries, added_spec_entries, DirtyPiece.without_kings, entries_ofEntries,
      List.filter_filter]
    congr 1
    apply List.filter_congr
    intro e _
    cases decide (type_of e.1 ≠ pos.nnue_king) <;> simp

/-- A record with king-type entries only yields empty lists. -/
theorem spec_only_kings (t : Params) (pos : Position) (dp : DirtyPiece) (p : Color)
    (h : ∀ i, i < dp.dirty_num → type_of (dp.piece i) = pos.nnue_king) :
    removed_spec t pos dp p = [] ∧ added_spec t pos dp p = [] := by
  unfold removed_spec added_spec
  constructor
  · rw [List.map_eq_nil_iff, List.filter_eq_nil_iff]
    intro i hi
    simp [h i (List.mem_range.mp hi)]
  · rw [List.map_eq_nil_iff, List.filter_eq_nil_iff]
    intro i hi
    simp [h i (List.mem_range.mp hi)]

/-! ### C2 and C3 -/

/-- C2. Started on empty lists, `AppendChangedIndices` returns as `removed` the list, in
record order, of `make_index(pos, perspective, from[i], piece[i], ksq)` over the entries
`i < dirty_num` whose piece is not of the king type and whose from square is not
`SQ_NONE`, and as `added` the same list built from the to squares, `ksq` being the
oriented king square of the perspective in the given position; and a record with the
single entry (piece, from, to) of a non-king piece with both squares present gives
`removed = [index(from)]` and `added = [index(to)]`. -/
theorem AppendChangedIndices_spec (t : Params) (pos : Position) (p : Color) :
    (∀ dp : DirtyPiece,
      AppendChangedIndices t pos dp p [] [] = (removed_spec t pos dp p, added_spec t pos dp p))
    ∧ (∀ (pc : Piece) (f g : Int), type_of pc ≠ pos.nnue_king → f ≠ t.SQ_NONE →
        g ≠ t.SQ_NONE →
        AppendChangedIndices t pos (DirtyPiece.single pc f g) p [] []
          = ([make_index t pos p f pc (orient t pos p (pos.square p pos.nnue_king))],
             [make_index t pos p g pc (orient t pos p (pos.square p pos.nnue_king))])) := by
  constructor
  · intro dp
    rw [AppendChangedIndices_eq]
    simp
  · intro pc f g hk hf hg
    rw [AppendChangedIndices_eq, removed_spec_entries, added_spec_entries]
    simp [DirtyPiece.single, entries_ofEntries, king_square, hk, hf, hg]

/-- C2, at the scenario of the specification: the record of the pawn advance from e2
(square 12) to e4 (square 28), on the position after the move. -/
theorem AppendChangedIndices_spec_witness :
    type_of ⟨Color.WHITE, PAWN⟩ ≠ (pawn_position small_params 3).nnue_king
      ∧ (12 : Int) ≠ small_params.SQ_NONE ∧ (28 : Int) ≠ small_params.SQ_NONE
      ∧ AppendChangedIndices small_params (pawn_position small_params 3)
          (DirtyPiece.single ⟨Color.WHITE, PAWN⟩ 12 28) Color.WHITE [] []
        = ([make_index small_params (pawn_position small_params 3) Color.WHITE 12
              ⟨Color.WHITE, PAWN⟩ (orient small_params (pawn_position small_params 3)
                Color.WHITE ((pawn_position small_params 3).square Color.WHITE
                  (pawn_position small_params 3).nnue_king))],
           [make_index small_params (pawn_position small_params 3) Color.WHITE 28
              ⟨Color.WHITE, PAWN⟩ (orient small_params (pawn_position small_params 3)
                Color.WHITE ((pawn_position small_params 3).square Color.WHITE
                  (pawn_position small_params 3).nnue_king))]) :=
  ⟨by decide, by decide, by decide,
    (AppendChangedIndices_spec small_params (pawn_position small_params 3) Color.WHITE).2
      ⟨Color.WHITE, PAWN⟩ 12 28 (by decide) (by decide) (by decide)⟩

/-- C3. King-move exclusion: the output of `AppendChangedIndices` equals its output on
the record with all king-type entries deleted, and a record consisting only of
king-type entries leaves both lists unchanged. -/
theorem AppendChangedIndices_king_exclusion (t : Params) (pos : Position) (dp : DirtyPiece)
    (p : Color) (removed added : IndexList) :
    AppendChangedIndices t pos (dp.without_kings pos) p removed added
        = AppendChangedIndices t pos dp p removed added
      ∧ ((∀ i, i < dp.dirty_num → type_of (dp.piece i) = pos.nnue_king) →
          AppendChangedIndices t pos dp p removed added = (removed, added)) := by
  constructor
  · rw [AppendChangedIndices_eq, AppendChangedIndices_eq, (spec_without_kings t pos dp p).1,
      (spec_without_kings t pos dp p).2]
  · intro h
    rw [AppendChangedIndices_eq, (spec_only_kings t pos dp p h).1,
      (spec_only_kings t pos dp p h).2]
    simp

/-! ### Square arithmetic -/

/-- A square is its file plus `FILE_NB` times its rank. -/
theorem file_add_rank (t : Params) (s : Int) :
    file_of t s + t.FILE_NB * rank_of t s = s := by
  unfold file_of rank_of
  exact Int.tmod_add_tdiv s t.FILE_NB

/-- File of the square built from a file and a rank. -/
theorem file_of_mk (t : Params) (f r : Int) (hf : 0 ≤ f) (hfN : f < t.FILE_NB) (hr : 0 ≤ r) :
    file_of t (f + t.FILE_NB * r) = f := by
  have hN : 0 ≤ t.FILE_NB := by omega
  have hs : 0 ≤ f + t.FILE_NB * r := by positivity
  unfold file_of
  rw [Int.tmod_eq_emod hs hN, Int.add_mul_emod_self_left, Int.emod_eq_of_lt hf hfN]

/-- Rank of the square built from a file and a rank. -/
theorem rank_of_mk (t : Params) (f r : Int) (hf : 0 ≤ f) (hfN : f < t.FILE_NB) (hr : 0 ≤ r) :
    rank_of t (f + t.FILE_NB * r) = r := by
  have hN : 0 ≤ t.FILE_NB := by omega
  have hs : 0 ≤ f + t.FILE_NB * r := by positivity
  unfold rank_of
  rw [Int.tdiv_eq_ediv hs hN, Int.add_mul_ediv_left _ _ (by omega),
    Int.ediv_eq_zero_of_lt hf hfN]
  simp

/-- File and rank of a non-negative square are non-negative, the file below `FILE_NB`. -/
theorem file_rank_bounds (t : Params) (s : Int) (hs : 0 ≤ s) (hN : 0 < t.FILE_NB) :
    0 ≤ file_of t s ∧ file_of t s < t.FILE_NB ∧ 0 ≤ rank_of t s := by
  unfold file_of rank_of
  rw [Int.tmod_eq_emod hs (by omega), Int.tdiv_eq_ediv hs (by omega)]
  exact ⟨Int.emod_nonneg _ (by omega), Int.emod_lt_of_pos _ hN, Int.ediv_nonneg hs (by omega)⟩

/-- Compaction sends the square of file `f` and rank `r` to `f + 8 * r`. -/
theorem map_to_standard_board_eq (t : Params) (s : Int) :
    map_to_standard_board t s = file_of t s + 8 * rank_of t s := by
  have h := file_add_rank t s
  unfold map_to_standard_board FILE_MAX FILE_H
  linear_combination -h

/-- The files of a board with a valid square fit a positive number of files. -/
theorem FILE_NB_pos_of_valid (t : Params) (pos : Position) (s : Int)
    (hv : valid_standard_square t pos s) : 0 < t.FILE_NB := by
  obtain ⟨hs, hf, hmax, _⟩ := hv
  have h0 : 0 ≤ file_of t s := Int.tmod_nonneg _ hs
  omega

/-- Flipping both axes of the point reflection of a valid square gives the square back. -/
theorem flip_point_reflect (t : Params) (pos : Position) (s : Int)
    (harch : pos.nnue_architecture ≠ NnueArchitecture.NNUE_SHOGI)
    (hv : valid_standard_square t pos s) :
    flip_rank t (flip_file t (point_reflect t pos s) pos.max_file) pos.max_rank = s := by
  have hN := FILE_NB_pos_of_valid t pos s hv
  obtain ⟨hs, hf, hmax, hr⟩ := hv
  obtain ⟨hf0, hfN, hr0⟩ := file_rank_bounds t s hs hN
  have hsq := file_add_rank t s
  simp only [point_reflect, harch, if_false]
  have e1 : file_of t (pos.max_file - file_of t s + t.FILE_NB * (pos.max_rank - rank_of t s))
      = pos.max_file - file_of t s :=
    file_of_mk t _ _ (by omega) (by omega) (by omega)
  have e2 : flip_file t (pos.max_file - file_of t s
        + t.FILE_NB * (pos.max_rank - rank_of t s)) pos.max_file
      = file_of t s + t.FILE_NB * (pos.max_rank - rank_of t s) := by
    unfold flip_file
    rw [e1]
    ring
  rw [e2]
  unfold flip_rank
  rw [rank_of_mk t _ _ hf0 hfN (by omega)]
  linear_combination hsq

/-! ### C6, C7 and C9: orientation -/

/-- The shogi re-encoding of a valid square, with ordinary quotient and remainder. -/
theorem toShogiSquare_eq (s : Int) (hs : 0 ≤ s) :
    toShogiSquare s = (8 - s % 12) * 9 + 8 - s / 12 := by
  unfold toShogiSquare
  rw [Int.tmod_eq_emod hs (by omega), Int.tdiv_eq_ediv hs (by omega)]

/-- C6. Orientation symmetry: when no end-condition flag is active, for every valid
board square `s` and its point reflection `s'` across both axes,
`orient(pos, WHITE, s) = orient(pos, BLACK, s')`, in the standard and in the shogi
architecture. -/
theorem orient_symmetry (t : Params) (pos : Position) (s : Int)
    (hflag : flag_inactive t pos) (hv : valid_square t pos s) :
    orient t pos Color.WHITE s = orient t pos Color.BLACK (point_reflect t pos s) := by
  by_cases harch : pos.nnue_architecture = NnueArchitecture.NNUE_SHOGI
  · simp only [valid_square, harch, if_true] at hv
    obtain ⟨hs, hf, hr⟩ := hv
    rw [Int.tmod_eq_emod hs (by omega)] at hf
    rw [Int.tdiv_eq_ediv hs (by omega)] at hr
    have hrefl : point_reflect t pos s = (8 - s % 12) + 12 * (8 - s / 12) := by
      simp only [point_reflect, harch, if_true]
      rw [Int.tmod_eq_emod hs (by omega), Int.tdiv_eq_ediv hs (by omega)]
    have hs' : 0 ≤ (8 - s % 12) + 12 * (8 - s / 12) := by omega
    simp only [orient, harch, if_true, hrefl, rotate, SQUARE_NB_SHOGI]
    rw [toShogiSquare_eq s hs, toShogiSquare_eq _ hs']
    simp
    omega
  · simp only [valid_square, harch, if_false] at hv
    have hfl : ¬ (pos.capture_the_flag Color.BLACK &&& t.Rank8BB) ≠ 0 := by
      unfold flag_inactive at hflag
      simp [hflag]
    simp only [orient, harch, if_false, hfl, or_false, true_or, if_true]
    have hb : ¬ (Color.BLACK = Color.WHITE) := by decide
    simp only [hb, if_false]
    rw [flip_point_reflect t pos s harch hv]

/-- C6, at a concrete square: a2 and its reflection h7 on the 8x8 board of a
12-file build. -/
theorem orient_symmetry_witness :
    flag_inactive large_params (pawn_position large_params 1)
      ∧ valid_square large_params (pawn_position large_params 1) 12
      ∧ orient large_params (pawn_position large_params 1) Color.WHITE 12
          = orient large_params (pawn_position large_params 1) Color.BLACK
              (point_reflect large_params (pawn_position large_params 1) 12) :=
  ⟨by decide, by decide, orient_symmetry large_params (pawn_position large_params 1) 12
    (by decide) (by decide)⟩

/-- C7 as stated fails on a build with 12 files per rank: with no flag active, the
valid square a2 (square 12) of the 8x8 board is oriented to 8 for the first colour. -/
theorem orient_white_not_identity :
    (pawn_position large_params 1).nnue_architecture ≠ NnueArchitecture.NNUE_SHOGI
      ∧ flag_inactive large_params (pawn_position large_params 1)
      ∧ valid_square large_params (pawn_position large_params 1) 12
      ∧ orient large_params (pawn_position large_params 1) Color.WHITE 12 = 8
      ∧ orient large_params (pawn_position large_params 1) Color.WHITE 12 ≠ 12 := by
  decide

/-- C7, amended. In the standard architecture with no end-condition flag active, for
every valid board square `s`, `orient(pos, WHITE, s)` is the number `file + 8 * rank` of
the square on the 8x8 board; it is `s` itself when the square encoding has eight files
per rank (`FILE_MAX = FILE_H`) and when `s` lies on the first rank. -/
theorem orient_white_standard (t : Params) (pos : Position) (s : Int)
    (harch : pos.nnue_architecture ≠ NnueArchitecture.NNUE_SHOGI)
    (_hflag : flag_inactive t pos) (_hv : valid_square t pos s) :
    orient t pos Color.WHITE s = file_of t s + 8 * rank_of t s
      ∧ (FILE_MAX t = FILE_H → orient t pos Color.WHITE s = s)
      ∧ (rank_of t s = 0 → orient t pos Color.WHITE s = s) := by
  have ho : orient t pos Color.WHITE s = map_to_standard_board t s := by
    simp [orient, harch]
  have hsq := file_add_rank t s
  refine ⟨?_, ?_, ?_⟩
  · rw [ho, map_to_standard_board_eq]
  · intro h
    rw [ho]
    unfold map_to_standard_board
    rw [h]
    simp
  · intro h
    rw [ho]
    unfold map_to_standard_board
    rw [h]
    simp

/-- C7 amended, at a concrete square: a2 on the 8x8 board of a 12-file build. -/
theorem orient_white_standard_witness :
    (pawn_position large_params 1).nnue_architecture ≠ NnueArchitecture.NNUE_SHOGI
      ∧ flag_inactive large_params (pawn_position large_params 1)
      ∧ valid_square large_params (pawn_position large_params 1) 12
      ∧ orient large_params (pawn_position large_params 1) Color.WHITE 12
          = file_of large_params 12 + 8 * rank_of large_params 12 :=
  ⟨by decide, by decide, by decide,
    (orient_white_standard large_params (pawn_position large_params 1) 12
      (by decide) (by decide) (by decide)).1⟩

/-- C9. In the shogi architecture, for every square `file + 12 * rank` with file and
rank between 0 and 8: `orient(pos, WHITE, s) = (8 - file) * 9 + (8 - rank)` lies in
`[0, 81)`, `orient(pos, BLACK, s) = 80 - orient(pos, WHITE, s)`, and for each
perspective `orient` is a bijection from the 81 valid squares onto `{0, ..., 80}`. -/
theorem orient_shogi (t : Params) (pos : Position)
    (harch : pos.nnue_architecture = NnueArchitecture.NNUE_SHOGI) :
    (∀ f r : Int, 0 ≤ f → f ≤ 8 → 0 ≤ r → r ≤ 8 →
        orient t pos Color.WHITE (f + 12 * r) = (8 - f) * 9 + (8 - r)
          ∧ 0 ≤ orient t pos Color.WHITE (f + 12 * r)
          ∧ orient t pos Color.WHITE (f + 12 * r) < 81
          ∧ orient t pos Color.BLACK (f + 12 * r)
              = 80 - orient t pos Color.WHITE (f + 12 * r))
      ∧ ∀ c : Color, Set.BijOn (orient t pos c)
          {s | ∃ f r : Int, 0 ≤ f ∧ f ≤ 8 ∧ 0 ≤ r ∧ r ≤ 8 ∧ s = f + 12 * r}
          {x | 0 ≤ x ∧ x ≤ 80} := by
  have hw : ∀ f r : Int, 0 ≤ f → f ≤ 8 → 0 ≤ r → r ≤ 8 →
      toShogiSquare (f + 12 * r) = (8 - f) * 9 + (8 - r) := by
    intro f r hf0 hf8 hr0 hr8
    rw [toShogiSquare_eq _ (by omega)]
    omega
  have hb : ¬ (Color.BLACK = Color.WHITE) := by decide
  constructor
  · intro f r hf0 hf8 hr0 hr8
    simp only [orient, harch, if_true, hb, if_false, rotate, SQUARE_NB_SHOGI,
      hw f r hf0 hf8 hr0 hr8]
    refine ⟨trivial, ?_, ?_, ?_⟩ <;> omega
  · intro c
    have hc : ∀ f r : Int, 0 ≤ f → f ≤ 8 → 0 ≤ r → r ≤ 8 →
        orient t pos c (f + 12 * r)
          = if c = Color.WHITE then (8 - f) * 9 + (8 - r) else 80 - ((8 - f) * 9 + (8 - r)) := by
      intro f r hf0 hf8 hr0 hr8
      simp only [orient, harch, if_true, rotate, SQUARE_NB_SHOGI, hw f r hf0 hf8 hr0 hr8]
      split <;> simp
    refine ⟨?_, ?_, ?_⟩
    · rintro s ⟨f, r, hf0, hf8, hr0, hr8, rfl⟩
      rw [hc f r hf0 hf8 hr0 hr8]
      show (0 : Int) ≤ _ ∧ _ ≤ (80 : Int)
      split <;> constructor <;> omega
    · rintro s ⟨f, r, hf0, hf8, hr0, hr8, rfl⟩ s' ⟨f', r', hf0', hf8', hr0', hr8', rfl⟩ h
      rw [hc f r hf0 hf8 hr0 hr8, hc f' r' hf0' hf8' hr0' hr8'] at h
      split at h <;> omega
    · rintro x ⟨hx0, hx80⟩
      cases c with
      | WHITE =>
        refine ⟨(8 - x / 9) + 12 * (8 - x % 9), ⟨8 - x / 9, 8 - x % 9, ?_, ?_, ?_, ?_, rfl⟩, ?_⟩
        · omega
        · omega
        · omega
        · omega
        · rw [hc _ _ (by omega) (by omega) (by omega) (by omega)]
          simp only [if_true, if_false, hb]
          omega
      | BLACK =>
        refine ⟨(8 - (80 - x) / 9) + 12 * (8 - (80 - x) % 9),
          ⟨8 - (80 - x) / 9, 8 - (80 - x) % 9, ?_, ?_, ?_, ?_, rfl⟩, ?_⟩
        · omega
        · omega
        · omega
        · omega
        · rw [hc _ _ (by omega) (by omega) (by omega) (by omega)]
          simp only [if_true, if_false, hb]
          omega

/-- C9, at the concrete 9x9 position. -/
theorem orient_shogi_witness :
    shogi_position.nnue_architecture = NnueArchitecture.NNUE_SHOGI
      ∧ orient large_params shogi_position Color.WHITE (2 + 12 * 3) = (8 - 2) * 9 + (8 - 3)
      ∧ orient large_params shogi_position Color.BLACK (2 + 12 * 3)
          = 80 - orient large_params shogi_position Color.WHITE (2 + 12 * 3) :=
  ⟨by decide,
    ((orient_shogi large_params shogi_position (by decide)).1 2 3
      (by decide) (by decide) (by decide) (by decide)).1,
    ((orient_shogi large_params shogi_position (by decide)).1 2 3
      (by decide) (by decide) (by decide) (by decide)).2.2.2⟩

/-! ### C4 and C5: index range and disjointness -/

/-- Flipping both axes of a valid square of a standard board. -/
theorem flip_both (t : Params) (pos : Position) (s : Int)
    (hv : valid_standard_square t pos s) :
    flip_rank t (flip_file t s pos.max_file) pos.max_rank
      = (pos.max_file - file_of t s) + t.FILE_NB * (pos.max_rank - rank_of t s) := by
  have hN := FILE_NB_pos_of_valid t pos s hv
  obtain ⟨hs, hf, hmax, hr⟩ := hv
  obtain ⟨hf0, hfN, hr0⟩ := file_rank_bounds t s hs hN
  have hsq := file_add_rank t s
  have e1 : flip_file t s pos.max_file
      = (pos.max_file - file_of t s) + t.FILE_NB * rank_of t s := by
    unfold flip_file
    linear_combination -hsq
  rw [e1]
  unfold flip_rank
  rw [rank_of_mk t _ _ (by omega) (by omega) hr0]
  ring

/-- On a valid square of a standard board, `orient` is the compaction of the square
itself, or of its flip across both axes for the second colour without flag. -/
theorem orient_standard_eq (t : Params) (pos : Position) (p : Color) (s : Int)
    (harch : pos.nnue_architecture ≠ NnueArchitecture.NNUE_SHOGI)
    (hv : valid_standard_square t pos s) :
    orient t pos p s =
      if p = Color.WHITE ∨ ¬ flag_inactive t pos then file_of t s + 8 * rank_of t s
      else (pos.max_file - file_of t s) + 8 * (pos.max_rank - rank_of t s) := by
  have hN := FILE_NB_pos_of_valid t pos s hv
  have hfl := flip_both t pos s hv
  obtain ⟨hs, hf, hmax, hr⟩ := hv
  obtain ⟨hf0, hfN, hr0⟩ := file_rank_bounds t s hs hN
  simp only [orient, harch, if_false, flag_inactive]
  split
  · exact map_to_standard_board_eq t s
  · rw [hfl, map_to_standard_board_eq,
      file_of_mk t _ _ (by omega) (by omega) (by omega),
      rank_of_mk t _ _ (by omega) (by omega) (by omega)]

/-- On a valid square of a board that fits its architecture, `orient` lies in
`[0, number of oriented squares)`. -/
theorem orient_range (t : Params) (pos : Position) (p : Color) (s : Int)
    (hv : valid_square t pos s) (hfit : board_fits pos) :
    0 ≤ orient t pos p s ∧ orient t pos p s < king_square_nb pos := by
  by_cases harch : pos.nnue_architecture = NnueArchitecture.NNUE_SHOGI
  · simp only [valid_square, harch, if_true] at hv
    obtain ⟨hs, hf, hr⟩ := hv
    rw [Int.tmod_eq_emod hs (by omega)] at hf
    rw [Int.tdiv_eq_ediv hs (by omega)] at hr
    simp only [orient, harch, if_true, king_square_nb, rotate, SQUARE_NB_SHOGI,
      toShogiSquare_eq s hs]
    split <;> constructor <;> omega
  · simp only [valid_square, harch, if_false] at hv
    have hN := FILE_NB_pos_of_valid t pos s hv
    obtain ⟨hF, hR⟩ := hfit harch
    rw [orient_standard_eq t pos p s harch hv]
    obtain ⟨hs, hf, hmax, hr⟩ := hv
    obtain ⟨hf0, hfN, hr0⟩ := file_rank_bounds t s hs hN
    simp only [king_square_nb, harch, if_false, SQUARE_NB_CHESS]
    unfold FILE_H at hF
    unfold RANK_8 at hR
    split <;> constructor <;> omega

/-- The value `make_index` converts to `IndexType`. -/
theorem make_index_eq (t : Params) (pos : Position) (p : Color) (s : Int) (pc : Piece)
    (ksq : Int) :
    make_index t pos p s pc ksq
      = toIndexType (orient t pos p s + board_base t pos p pc + block_size t pos * ksq) := by
  unfold make_index board_base block_size
  split <;> rfl

/-- The 8x8 base-offset table of the examples partitions its block of 641 indices, for
every position of the standard architecture with the piece types of the examples. -/
theorem chess_index_partitions (t : Params) (pos : Position)
    (h1 : t.kpp_board_index = chess_board_index) (h2 : t.PS_END = 641)
    (harch : pos.nnue_architecture = NnueArchitecture.NNUE_CHESS)
    (htypes : pos.piece_types = [1, 2, 3, 4, 5, 6]) (hking : pos.nnue_king = KING) :
    table_partitions t pos := by
  have hty : ∀ pc : Piece, subject_piece pos pc → 1 ≤ pc.type ∧ pc.type ≤ 5 := by
    intro pc h
    obtain ⟨hm, hk⟩ := h
    rw [htypes] at hm
    rw [hking] at hk
    simp only [type_of, KING, List.mem_cons, List.mem_singleton,
      List.mem_nil_iff, or_false] at hm hk
    omega
  have hbase : board_base t pos = chess_board_index := by
    simp [board_base, harch, h1]
  have hblock : block_size t pos = 641 := by
    simp [block_size, harch, h2]
  have hnb : king_square_nb pos = 64 := by
    simp [king_square_nb, harch, SQUARE_NB_CHESS]
  intro p pc hpc
  obtain ⟨ha, hb⟩ := hty pc hpc
  rw [hbase, hblock, hnb]
  refine ⟨?_, ?_, ?_⟩
  · simp only [chess_board_index, ha, hb, and_self, if_true]
    split <;> omega
  · simp only [chess_board_index, ha, hb, and_self, if_true]
    split <;> omega
  · intro pc' hpc' hne
    obtain ⟨ha', hb'⟩ := hty pc' hpc'
    have hcases : pc.type ≠ pc'.type ∨ pc.color ≠ pc'.color := by
      by_contra hcon
      push_neg at hcon
      apply hne
      cases pc
      cases pc'
      simp_all
    simp only [chess_board_index, ha, hb, ha', hb', and_self, if_true]
    rcases pc with ⟨c, ty⟩
    rcases pc' with ⟨c', ty'⟩
    simp only at ha hb ha' hb' hcases ⊢
    cases p <;> cases c <;> cases c' <;> simp at hcases ⊢ <;> omega

set_option maxRecDepth 4096 in
/-- C4 as stated fails on a board wider than the 8x8 numbering: on a 10x10 board of the
standard architecture (12-file build) the valid square j10 (square 117) is oriented to
`81`, outside `[0, 64)`; with the black queen on it and the first colour's king on h8
(oriented king square 63) `orient + base = 81 + 577 = 658` is not below the block size
`641`, and `make_index` gives `41041`, not below `FEATURE_SPACE_SIZE = 641 * 64 = 41024`;
`AppendActiveIndices` emits that index. -/
theorem make_index_exceeds_on_wide_board :
    table_partitions large_params wide_position
      ∧ subject_piece wide_position ⟨Color.BLACK, QUEEN⟩
      ∧ valid_square large_params wide_position 117
      ∧ king_square large_params wide_position Color.WHITE = 63
      ∧ (63 : Int) < king_square_nb wide_position
      ∧ orient large_params wide_position Color.WHITE 117 = 81
      ∧ ¬ (orient large_params wide_position Color.WHITE 117
            + board_base large_params wide_position Color.WHITE ⟨Color.BLACK, QUEEN⟩
          < block_size large_params wide_position)
      ∧ make_index large_params wide_position Color.WHITE 117 ⟨Color.BLACK, QUEEN⟩ 63 = 41041
      ∧ FEATURE_SPACE_SIZE large_params wide_position = 41024
      ∧ ¬ (make_index large_params wide_position Color.WHITE 117 ⟨Color.BLACK, QUEEN⟩ 63
          < FEATURE_SPACE_SIZE large_params wide_position)
      ∧ AppendActiveIndices large_params wide_position Color.WHITE [] = [41041] :=
  ⟨chess_index_partitions large_params wide_position rfl rfl rfl rfl rfl, by decide, by decide,
    by decide, by decide, by decide, by decide, by decide, by decide, by decide, by decide⟩

/-- C4, amended. Index range on boards that fit the architecture: for every variant whose
board fits the square numbering of its architecture (at most 8 files and 8 ranks in the
standard one) and every valid tuple (perspective, non-king piece of the variant, board
square, oriented king square below the number of king squares), with base-offset tables
that partition the block, `orient(square) + base_offset[perspective][piece]` lies in
`[0, block size)` and `make_index` lies in `[0, FEATURE_SPACE_SIZE)`, the block size
times the number of king squares. -/
theorem make_index_range (t : Params) (pos : Position) (p : Color) (s : Int) (pc : Piece)
    (ksq : Int) (htab : table_partitions t pos) (hpc : subject_piece pos pc)
    (hv : valid_square t pos s) (hfit : board_fits pos)
    (hk0 : 0 ≤ ksq) (hk : ksq < king_square_nb pos) :
    0 ≤ orient t pos p s + board_base t pos p pc
      ∧ orient t pos p s + board_base t pos p pc < block_size t pos
      ∧ 0 ≤ make_index t pos p s pc ksq
      ∧ make_index t pos p s pc ksq < FEATURE_SPACE_SIZE t pos := by
  obtain ⟨ho0, ho1⟩ := orient_range t pos p s hv hfit
  obtain ⟨hb0, hb1, _⟩ := htab p pc hpc
  rw [make_index_eq]
  unfold FEATURE_SPACE_SIZE toIndexType
  have hB : 0 < block_size t pos := by omega
  have h2 : 0 ≤ block_size t pos * ksq := by positivity
  have h3 : block_size t pos * (ksq + 1) ≤ block_size t pos * king_square_nb pos := by
    apply mul_le_mul_of_nonneg_left <;> omega
  have h4 : block_size t pos * (ksq + 1) = block_size t pos * ksq + block_size t pos := by ring
  generalize block_size t pos * ksq = y at *
  generalize block_size t pos * king_square_nb pos = z at *
  refine ⟨?_, ?_, ?_, ?_⟩ <;> omega

/-- C5. Index disjointness: with base-offset tables that partition a block that fits
`IndexType`, for every position, perspective, square `s` and king square `ksq`, two
distinct non-king piece kinds of the variant give different indices. -/
theorem make_index_disjoint (t : Params) (pos : Position) (p : Color) (s : Int)
    (pc1 pc2 : Piece) (ksq : Int) (htab : table_partitions t pos)
    (hsize : block_size t pos ≤ 4294967296)
    (h1 : subject_piece pos pc1) (h2 : subject_piece pos pc2) (hne : pc1 ≠ pc2) :
    make_index t pos p s pc1 ksq ≠ make_index t pos p s pc2 ksq := by
  obtain ⟨ha0, ha1, hd⟩ := htab p pc1 h1
  obtain ⟨hb0, hb1, _⟩ := htab p pc2 h2
  have hdis := hd pc2 h2 hne
  have hn : 0 < king_square_nb pos := by
    unfold king_square_nb SQUARE_NB_SHOGI SQUARE_NB_CHESS
    split <;> decide
  rw [make_index_eq, make_index_eq]
  unfold toIndexType
  generalize block_size t pos * ksq = y at *
  generalize orient t pos p s = o at *
  omega

/-- The 8x8 base-offset table of the examples partitions its block of 641 indices. -/
theorem chess_table_partitions (t : Params) (r : Nat)
    (h1 : t.kpp_board_index = chess_board_index) (h2 : t.PS_END = 641) :
    table_partitions t (pawn_position t r) := by
  have hty : ∀ pc : Piece, subject_piece (pawn_position t r) pc → 1 ≤ pc.type ∧ pc.type ≤ 5 := by
    intro pc h
    obtain ⟨hm, hk⟩ := h
    simp only [pawn_position, type_of, KING, List.mem_cons, List.mem_singleton,
      List.mem_nil_iff, or_false] at hm hk
    omega
  have hbase : board_base t (pawn_position t r) = chess_board_index := by
    simp [board_base, pawn_position, h1]
  have hblock : block_size t (pawn_position t r) = 641 := by
    simp [block_size, pawn_position, h2]
  have hnb : king_square_nb (pawn_position t r) = 64 := by
    simp [king_square_nb, pawn_position, SQUARE_NB_CHESS]
  intro p pc hpc
  obtain ⟨ha, hb⟩ := hty pc hpc
  rw [hbase, hblock, hnb]
  refine ⟨?_, ?_, ?_⟩
  · simp only [chess_board_index, ha, hb, and_self, if_true]
    split <;> omega
  · simp only [chess_board_index, ha, hb, and_self, if_true]
    split <;> omega
  · intro pc' hpc' hne
    obtain ⟨ha', hb'⟩ := hty pc' hpc'
    have hcases : pc.type ≠ pc'.type ∨ pc.color ≠ pc'.color := by
      by_contra hcon
      push_neg at hcon
      apply hne
      cases pc
      cases pc'
      simp_all
    simp only [chess_board_index, ha, hb, ha', hb', and_self, if_true]
    rcases pc with ⟨c, ty⟩
    rcases pc' with ⟨c', ty'⟩
    simp only at ha hb ha' hb' hcases ⊢
    cases p <;> cases c <;> cases c' <;> simp at hcases ⊢ <;> omega

/-- C4, at the scenario of the specification: the white pawn on e2 seen by the first
colour whose king is on e1. -/
theorem make_index_range_witness :
    table_partitions small_params (pawn_position small_params 1)
      ∧ subject_piece (pawn_position small_params 1) ⟨Color.WHITE, PAWN⟩
      ∧ valid_square small_params (pawn_position small_params 1) 12
      ∧ board_fits (pawn_position small_params 1)
      ∧ 0 ≤ make_index small_params (pawn_position small_params 1) Color.WHITE 12
            ⟨Color.WHITE, PAWN⟩ 4
      ∧ make_index small_params (pawn_position small_params 1) Color.WHITE 12
            ⟨Color.WHITE, PAWN⟩ 4 < FEATURE_SPACE_SIZE small_params (pawn_position small_params 1) :=
  ⟨chess_table_partitions small_params 1 rfl rfl, by decide, by decide, by decide,
    (make_index_range small_params (pawn_position small_params 1) Color.WHITE 12
      ⟨Color.WHITE, PAWN⟩ 4 (chess_table_partitions small_params 1 rfl rfl)
      (by decide) (by decide) (by decide) (by decide) (by decide)).2.2⟩

/-- C5, at the scenario of the specification: a white and a black pawn on e2. -/
theorem make_index_disjoint_witness :
    table_partitions small_params (pawn_position small_params 1)
      ∧ block_size small_params (pawn_position small_params 1) ≤ 4294967296
      ∧ subject_piece (pawn_position small_params 1) ⟨Color.WHITE, PAWN⟩
      ∧ subject_piece (pawn_position small_params 1) ⟨Color.BLACK, PAWN⟩
      ∧ make_index small_params (pawn_position small_params 1) Color.WHITE 12
            ⟨Color.WHITE, PAWN⟩ 4
          ≠ make_index small_params (pawn_position small_params 1) Color.WHITE 12
            ⟨Color.BLACK, PAWN⟩ 4 :=
  ⟨chess_table_partitions small_params 1 rfl rfl, by decide, by decide, by decide,
    make_index_disjoint small_params (pawn_position small_params 1) Color.WHITE 12
      ⟨Color.WHITE, PAWN⟩ ⟨Color.BLACK, PAWN⟩ 4 (chess_table_partitions small_params 1 rfl rfl)
      (by decide) (by decide) (by decide) (by decide)⟩

/-! ### Bitboards: lowest digit and the pop loop -/

/-- The lowest set digit is set and no lower digit is. -/
theorem lsb_aux_spec (fuel : Nat) : ∀ b : Nat, b ≠ 0 → b ≤ fuel →
    b.testBit (lsb_aux fuel b) = true ∧ ∀ i, i < lsb_aux fuel b → b.testBit i = false := by
  induction fuel with
  | zero =>
    intro b hb hle
    omega
  | succ fuel ih =>
    intro b hb hle
    by_cases hodd : b % 2 = 1
    · simp only [lsb_aux, hodd, if_true]
      refine ⟨?_, ?_⟩
      · rw [Nat.testBit_zero]
        simp [hodd]
      · intro i hi
        omega
    · simp only [lsb_aux, hodd, if_false]
      obtain ⟨h1, h2⟩ := ih (b / 2) (by omega) (by omega)
      refine ⟨?_, ?_⟩
      · rw [Nat.testBit_succ]
        exact h1
      · intro i hi
        cases i with
        | zero =>
          rw [Nat.testBit_zero]
          simp [hodd]
        | succ j =>
          rw [Nat.testBit_succ]
          exact h2 j (by omega)

/-- Digits of the predecessor: ones below the lowest set digit, zero at it, unchanged
above it. -/
theorem testBit_pred (fuel : Nat) : ∀ b : Nat, b ≠ 0 → b ≤ fuel → ∀ i,
    (b - 1).testBit i
      = if i < lsb_aux fuel b then true
        else if i = lsb_aux fuel b then false else b.testBit i := by
  induction fuel with
  | zero =>
    intro b hb hle
    omega
  | succ fuel ih =>
    intro b hb hle i
    by_cases hodd : b % 2 = 1
    · simp only [lsb_aux, hodd, if_true]
      cases i with
      | zero =>
        rw [Nat.testBit_zero]
        have : (b - 1) % 2 ≠ 1 := by omega
        simp [this]
      | succ j =>
        rw [Nat.testBit_succ, Nat.testBit_succ]
        have : (b - 1) / 2 = b / 2 := by omega
        rw [this]
        simp
    · simp only [lsb_aux, hodd, if_false]
      cases i with
      | zero =>
        rw [Nat.testBit_zero]
        have : (b - 1) % 2 = 1 := by omega
        simp [this]
      | succ j =>
        rw [Nat.testBit_succ, Nat.testBit_succ]
        have : (b - 1) / 2 = b / 2 - 1 := by omega
        rw [this, ih (b / 2) (by omega) (by omega) j]
        simp

/-- The bitboard left by `pop_lsb` has the digits of the bitboard but the lowest. -/
theorem testBit_pop (b : Nat) (hb : b ≠ 0) (i : Nat) :
    (pop_lsb b).2.testBit i = (b.testBit i && decide (i ≠ lsb b)) := by
  obtain ⟨h1, h2⟩ := lsb_aux_spec b b hb (le_refl b)
  have h3 := testBit_pred b b hb (le_refl b) i
  simp only [pop_lsb, lsb, Nat.testBit_and, h3]
  by_cases hlt : i < lsb_aux b b
  · simp [hlt, h2 i hlt]
  · by_cases heq : i = lsb_aux b b
    · simp [heq]
    · simp [hlt, heq]

/-- Filtering a range by a predicate whose first true value is `k`. -/
theorem filter_range_first (p : Nat → Bool) (k : Nat) (hk : p k = true)
    (hlow : ∀ i, i < k → p i = false) : ∀ n, k < n →
    (List.range n).filter p = k :: (List.range n).filter (fun i => p i && decide (i ≠ k)) := by
  intro n
  induction n with
  | zero =>
    intro h
    omega
  | succ n ih =>
    intro h
    rw [List.range_succ, List.filter_append, List.filter_append]
    by_cases hkn : k < n
    · rw [ih hkn]
      have hne : n ≠ k := by omega
      simp [List.filter_cons, hne]
    · have hkeq : k = n := by omega
      subst hkeq
      have e1 : (List.range k).filter p = [] := by
        rw [List.filter_eq_nil_iff]
        intro a ha
        simp [hlow a (List.mem_range.mp ha)]
      have e2 : (List.range k).filter (fun i => p i && decide (i ≠ k)) = [] := by
        rw [List.filter_eq_nil_iff]
        intro a ha
        simp [hlow a (List.mem_range.mp ha)]
      rw [e1, e2]
      simp [List.filter_cons, hk]

/-- The pop loop visits the set digits of the bitboard in increasing order. -/
theorem pop_loop_eq (f : Int → Int) (n : Nat) (fuel : Nat) : ∀ (b : Nat) (active : IndexList),
    b ≤ fuel → b < 2 ^ n →
    pop_loop f fuel b active
      = active ++ ((List.range n).filter (fun i => b.testBit i)).map (fun i => f (i : Nat)) := by
  induction fuel with
  | zero =>
    intro b active hle hlt
    have hb : b = 0 := by omega
    subst hb
    simp [pop_loop]
  | succ fuel ih =>
    intro b active hle hlt
    by_cases hb : b = 0
    · subst hb
      simp [pop_loop]
    · have hpop : (pop_lsb b).2 ≤ b - 1 := by
        simp only [pop_lsb]
        exact Nat.and_le_right
      obtain ⟨h1, h2⟩ := lsb_aux_spec b b hb (le_refl b)
      have hk : lsb b < n := by
        by_contra hcon
        have hge : n ≤ lsb b := by omega
        have hpow : b < 2 ^ lsb b := lt_of_lt_of_le hlt (Nat.pow_le_pow_right (by decide) hge)
        have := Nat.testBit_lt_two_pow hpow
        unfold lsb at this
        rw [h1] at this
        exact Bool.noConfusion this
      simp only [pop_loop, hb, if_false]
      rw [ih (pop_lsb b).2 _ (by omega) (by omega)]
      rw [filter_range_first (fun i => b.testBit i) (lsb b) h1 h2 n hk]
      have hfun : (fun i => (pop_lsb b).2.testBit i)
          = (fun i => b.testBit i && decide (i ≠ lsb b)) := by
        funext i
        exact testBit_pop b hb i
      rw [hfun]
      simp [push_back, pop_lsb]

/-! ### C8: the active indices -/

/-- A fold whose step appends a list is an append of the concatenation. -/
theorem foldl_append_flatMap {α : Type} (g : IndexList → α → IndexList) (h : α → IndexList)
    (hg : ∀ acc x, g acc x = acc ++ h x) (l : List α) (acc : IndexList) :
    l.foldl g acc = acc ++ l.flatMap h := by
  induction l generalizing acc with
  | nil => simp
  | cons x l ih =>
    rw [List.foldl_cons, hg, ih]
    simp

/-- The hand loops append the hand indices. -/
theorem append_hand_indices_eq (t : Params) (pos : Position) (p : Color)
    (active : IndexList) :
    append_hand_indices t pos p (king_square t pos p) active
      = active ++ hand_indices t pos p := by
  unfold append_hand_indices hand_indices
  apply foldl_append_flatMap
  intro acc c
  apply foldl_append_flatMap
  intro acc pt
  have h := foldl_append_flatMap
    (fun (a : IndexList) (i : Nat) =>
      push_back a (make_index_hand t p c (i : Nat) pt (king_square t pos p)))
    (fun i => [make_index_hand t p c (i : Nat) pt (king_square t pos p)])
    (fun a i => rfl) (List.range (pos.count_in_hand c pt)) acc
  rw [h]
  congr 1
  induction (List.range (pos.count_in_hand c pt)) with
  | nil => rfl
  | cons x l ih => simp [List.flatMap_cons, ih]

/-- Digits of the bitboard that `AppendActiveIndices` walks. -/
theorem testBit_board (t : Params) (pos : Position) (i : Nat) :
    (pos.pieces &&& bb_not t (pos.pieces_of pos.nnue_king)).testBit i
      = (decide (i < t.BB_BITS)
          && (pos.pieces.testBit i && !(pos.pieces_of pos.nnue_king).testBit i)) := by
  simp only [bb_not, Nat.testBit_and, Nat.testBit_xor, Nat.testBit_two_pow_sub_one,
    Nat.testBit_mod_two_pow]
  by_cases h : i < t.BB_BITS <;> simp [h]

/-- The bitboard that `AppendActiveIndices` walks fits the bitboard width. -/
theorem board_lt (t : Params) (pos : Position) :
    (pos.pieces &&& bb_not t (pos.pieces_of pos.nnue_king)) < 2 ^ t.BB_BITS := by
  apply Nat.and_lt_two_pow
  unfold bb_not
  apply Nat.xor_lt_two_pow
  · have : 0 < 2 ^ t.BB_BITS := Nat.two_pow_pos _
    omega
  · exact Nat.mod_lt _ (Nat.two_pow_pos _)

/-- Closed form of `AppendActiveIndices` on an arbitrary initial list. -/
theorem AppendActiveIndices_eq (t : Params) (pos : Position) (p : Color)
    (active : IndexList) :
    AppendActiveIndices t pos p active
      = active ++ board_indices t pos p
          ++ (if pos.piece_drops then hand_indices t pos p else []) := by
  have hloop := pop_loop_eq
    (fun s => make_index t pos p s (pos.piece_on s) (king_square t pos p)) t.BB_BITS
    (pos.pieces &&& bb_not t (pos.pieces_of pos.nnue_king))
    (pos.pieces &&& bb_not t (pos.pieces_of pos.nnue_king)) active (le_refl _) (board_lt t pos)
  have hfilter : (List.range t.BB_BITS).filter
        (fun i => (pos.pieces &&& bb_not t (pos.pieces_of pos.nnue_king)).testBit i)
      = board_squares t pos := by
    unfold board_squares
    apply List.filter_congr
    intro i hi
    rw [testBit_board]
    simp [List.mem_range.mp hi]
  rw [hfilter] at hloop
  have hhand := append_hand_indices_eq t pos p (active ++ board_indices t pos p)
  unfold king_square at hloop hhand
  unfold AppendActiveIndices
  simp only [hloop]
  split
  · exact hhand
  · simp [board_indices, king_square]

/-- Number of hand indices. -/
theorem hand_indices_length (t : Params) (pos : Position) (p : Color) :
    (hand_indices t pos p).length = hand_total pos := by
  unfold hand_indices hand_total
  rw [List.length_flatMap]
  congr 1
  apply List.map_congr_left
  intro c _
  simp only [Function.comp]
  rw [List.length_flatMap]
  congr 1
  apply List.map_congr_left
  intro pt _
  simp

/-- C8. Active-set enumeration: started on an empty list, `AppendActiveIndices` yields
first exactly one board-piece index `make_index(pos, perspective, s, piece_on(s), ksq)`
for each occupied square `s` not holding a piece of the king type, in increasing square
order, and no index for a king square; then, only if the variant supports drops, for
colour `WHITE` then `BLACK` and each piece type in the variant's order, the hand
indices of the slots `0 .. count_in_hand(c, pt) - 1`.  The length of the list is the
number of non-king pieces on the board plus the sum of the hand counts if drops are
supported. -/
theorem AppendActiveIndices_spec (t : Params) (pos : Position) (p : Color) :
    AppendActiveIndices t pos p []
        = board_indices t pos p ++ (if pos.piece_drops then hand_indices t pos p else [])
      ∧ (board_squares t pos).Pairwise (fun a b => a < b)
      ∧ (∀ s, s ∈ board_squares t pos ↔
          s < t.BB_BITS ∧ pos.pieces.testBit s = true
            ∧ (pos.pieces_of pos.nnue_king).testBit s = false)
      ∧ (AppendActiveIndices t pos p []).length
          = (board_squares t pos).length + (if pos.piece_drops then hand_total pos else 0) := by
  have h := AppendActiveIndices_eq t pos p []
  rw [List.nil_append] at h
  refine ⟨h, ?_, ?_, ?_⟩
  · exact List.Pairwise.filter _ (List.pairwise_lt_range _)
  · intro s
    simp [board_squares, List.mem_filter]
  · rw [h, List.length_append]
    split
    · rw [hand_indices_length]
      simp [board_indices]
    · simp [board_indices]

/-! ### C1 and C10: the diff against the active set -/

/-- Membership in the board part of the active indices, in terms of the board. -/
theorem mem_board_indices (t : Params) (pos : Position) (p : Color)
    (hinv : king_bitboard_ok t pos) (x : Int) :
    x ∈ board_indices t pos p ↔
      ∃ e ∈ occupancy t pos, type_of e.2 ≠ pos.nnue_king
        ∧ x = make_index t pos p e.1 e.2 (king_square t pos p) := by
  unfold board_indices board_squares occupancy
  simp only [List.mem_map, List.mem_filter, List.mem_range, Bool.and_eq_true,
    Bool.not_eq_true']
  constructor
  · rintro ⟨s, ⟨hs, hocc, hk⟩, rfl⟩
    refine ⟨((s : Int), pos.piece_on (s : Nat)), ⟨s, ⟨hs, hocc⟩, rfl⟩, ?_, rfl⟩
    intro hty
    rw [(hinv s hs hocc).mpr hty] at hk
    exact Bool.noConfusion hk
  · rintro ⟨e, ⟨s, ⟨hs, hocc⟩, rfl⟩, hty, rfl⟩
    refine ⟨s, ⟨hs, hocc, ?_⟩, rfl⟩
    cases hb : (pos.pieces_of pos.nnue_king).testBit s with
    | false => rfl
    | true => exact absurd ((hinv s hs hocc).mp hb) hty

/-- Membership in the removed list, in terms of the record. -/
theorem mem_removed_spec (t : Params) (pos : Position) (dp : DirtyPiece) (p : Color)
    (x : Int) :
    x ∈ removed_spec t pos dp p ↔
      ∃ e ∈ record_from t dp, type_of e.2 ≠ pos.nnue_king
        ∧ x = make_index t pos p e.1 e.2 (king_square t pos p) := by
  rw [removed_spec_entries]
  unfold record_from
  simp only [List.mem_map, List.mem_filter, Bool.and_eq_true, decide_eq_true_eq]
  constructor
  · rintro ⟨e, ⟨he, hk, hf⟩, rfl⟩
    exact ⟨(e.2.1, e.1), ⟨e, ⟨he, hf⟩, rfl⟩, hk, rfl⟩
  · rintro ⟨_, ⟨e, ⟨he, hf⟩, rfl⟩, hk, rfl⟩
    exact ⟨e, ⟨he, hk, hf⟩, rfl⟩

/-- Membership in the added list, in terms of the record. -/
theorem mem_added_spec (t : Params) (pos : Position) (dp : DirtyPiece) (p : Color)
    (x : Int) :
    x ∈ added_spec t pos dp p ↔
      ∃ e ∈ record_to t dp, type_of e.2 ≠ pos.nnue_king
        ∧ x = make_index t pos p e.1 e.2 (king_square t pos p) := by
  rw [added_spec_entries]
  unfold record_to
  simp only [List.mem_map, List.mem_filter, Bool.and_eq_true, decide_eq_true_eq]
  constructor
  · rintro ⟨e, ⟨he, hk, hf⟩, rfl⟩
    exact ⟨(e.2.2, e.1), ⟨e, ⟨he, hf⟩, rfl⟩, hk, rfl⟩
  · rintro ⟨_, ⟨e, ⟨he, hf⟩, rfl⟩, hk, rfl⟩
    exact ⟨e, ⟨he, hk, hf⟩, rfl⟩

/-- Orientation only reads the variant. -/
theorem orient_congr (t : Params) (before after : Position) (hvar : same_variant before after)
    (p : Color) (s : Int) : orient t after p s = orient t before p s := by
  obtain ⟨h1, h2, h3, h4, _⟩ := hvar
  unfold orient
  rw [h1, h2, h3, h4]

/-- The board-piece index only reads the variant. -/
theorem make_index_congr (t : Params) (before after : Position)
    (hvar : same_variant before after) (p : Color) (s : Int) (pc : Piece) (ksq : Int) :
    make_index t after p s pc ksq = make_index t before p s pc ksq := by
  unfold make_index
  rw [orient_congr t before after hvar, hvar.1]

/-- The oriented king square is unchanged when the king stays. -/
theorem king_square_congr (t : Params) (before after : Position)
    (hvar : same_variant before after) (p : Color)
    (hking : after.square p after.nnue_king = before.square p before.nnue_king) :
    king_square t after p = king_square t before p := by
  unfold king_square
  rw [hking, orient_congr t before after hvar]

/-- The hand indices are unchanged when the hands and the king stay. -/
theorem hand_indices_congr (t : Params) (before after : Position)
    (hvar : same_variant before after) (p : Color)
    (hking : after.square p after.nnue_king = before.square p before.nnue_king)
    (hhands : same_hands before after) :
    hand_indices t after p = hand_indices t before p := by
  unfold hand_indices
  rw [king_square_congr t before after hvar p hking, hvar.2.2.2.2.2.2]
  have : after.count_in_hand = before.count_in_hand := by
    funext c pt
    exact hhands c pt
  rw [this]

/-- The pairs of the board are determined by their squares. -/
theorem occupancy_square_inj (t : Params) (pos : Position) (e1 e2 : Int × Piece)
    (h1 : e1 ∈ occupancy t pos) (h2 : e2 ∈ occupancy t pos) (h : e1.1 = e2.1) : e1 = e2 := by
  unfold occupancy at h1 h2
  simp only [List.mem_map, List.mem_filter, List.mem_range] at h1 h2
  obtain ⟨s1, _, rfl⟩ := h1
  obtain ⟨s2, _, rfl⟩ := h2
  simp only at h
  simp [h]

/-- Without repeated board indices, two non-king pieces of the board with one index are
one piece. -/
theorem board_index_inj (t : Params) (pos : Position) (p : Color)
    (hnd : (board_indices t pos p).Nodup) (e1 e2 : Int × Piece)
    (h1 : e1 ∈ occupancy t pos) (h2 : e2 ∈ occupancy t pos)
    (hinv : king_bitboard_ok t pos)
    (k1 : type_of e1.2 ≠ pos.nnue_king) (k2 : type_of e2.2 ≠ pos.nnue_king)
    (h : make_index t pos p e1.1 e1.2 (king_square t pos p)
        = make_index t pos p e2.1 e2.2 (king_square t pos p)) : e1 = e2 := by
  apply occupancy_square_inj t pos e1 e2 h1 h2
  have hmem : ∀ e : Int × Piece, e ∈ occupancy t pos → type_of e.2 ≠ pos.nnue_king →
      ∃ s ∈ board_squares t pos, e = ((s : Int), pos.piece_on (s : Int)) := by
    intro e he hk
    unfold occupancy at he
    simp only [List.mem_map, List.mem_filter, List.mem_range] at he
    obtain ⟨s, ⟨hs, hocc⟩, rfl⟩ := he
    refine ⟨s, ?_, rfl⟩
    unfold board_squares
    simp only [List.mem_filter, List.mem_range, Bool.and_eq_true, Bool.not_eq_true']
    refine ⟨hs, hocc, ?_⟩
    cases hb : (pos.pieces_of pos.nnue_king).testBit s with
    | false => rfl
    | true => exact absurd ((hinv s hs hocc).mp hb) hk
  obtain ⟨s1, hs1, rfl⟩ := hmem e1 h1 k1
  obtain ⟨s2, hs2, rfl⟩ := hmem e2 h2 k2
  unfold board_indices at hnd
  have := List.inj_on_of_nodup_map hnd hs1 hs2 h
  simp [this]

/-- C1, amended. Diff equivalence for moves that leave the hands alone: for two
positions of one variant around a move that leaves the perspective's king on its
square and every hand count unchanged, with a change record that describes the board
change, and with no repeated index among the active indices before the move, the set
of `AppendActiveIndices(after, perspective)` equals (the set of
`AppendActiveIndices(before, perspective)` minus `removed`) union `added`, where
(`removed`, `added`) is `AppendChangedIndices(after, record, perspective)` started on
empty lists. -/
theorem diff_equivalence (t : Params) (before after : Position) (dp : DirtyPiece) (p : Color)
    (hvar : same_variant before after)
    (hking : after.square p after.nnue_king = before.square p before.nnue_king)
    (hhands : same_hands before after)
    (hrec : record_describes t before after dp)
    (hb : king_bitboard_ok t before) (ha : king_bitboard_ok t after)
    (hnodup : (AppendActiveIndices t before p []).Nodup) :
    diff_equivalent t before after dp p := by
  obtain ⟨hfrom, hafter, hstay, hto⟩ := hrec
  have hksq := king_square_congr t before after hvar p hking
  have hidx : ∀ e : Int × Piece, make_index t after p e.1 e.2 (king_square t after p)
      = make_index t before p e.1 e.2 (king_square t before p) := by
    intro e
    rw [hksq, make_index_congr t before after hvar]
  have hhand : (if after.piece_drops then hand_indices t after p else [])
      = (if before.piece_drops then hand_indices t before p else []) := by
    rw [hvar.2.2.2.2.2.1, hand_indices_congr t before after hvar p hking hhands]
  rw [AppendActiveIndices_eq, List.nil_append, List.nodup_append] at hnodup
  obtain ⟨hnd, _, hdisj⟩ := hnodup
  have hkt : after.nnue_king = before.nnue_king := hvar.2.2.2.2.1
  intro x
  simp only [AppendActiveIndices_eq, AppendChangedIndices_eq, List.nil_append, List.mem_append,
    mem_board_indices t after p ha, mem_board_indices t before p hb, mem_removed_spec,
    mem_added_spec, hhand, hidx, hkt]
  constructor
  · rintro (⟨e, he, hk, rfl⟩ | hH)
    · rcases hafter e he with ⟨heb, hnf⟩ | het
      · left
        refine ⟨Or.inl ⟨e, heb, hk, rfl⟩, ?_⟩
        rintro ⟨e', he', hk', heq⟩
        have : e = e' := board_index_inj t before p hnd e e' heb (hfrom e' he') hb hk hk' heq
        exact hnf (this ▸ he')
      · right
        exact ⟨e, het, hk, rfl⟩
    · left
      refine ⟨Or.inr hH, ?_⟩
      rintro ⟨e', he', hk', heq⟩
      have hxb : x ∈ board_indices t before p :=
        (mem_board_indices t before p hb x).mpr ⟨e', hfrom e' he', hk', heq⟩
      exact hdisj hxb hH
  · rintro (⟨(⟨e, he, hk, rfl⟩ | hH), hnr⟩ | ⟨e, he, hk, rfl⟩)
    · left
      refine ⟨e, hstay e he ?_, hk, rfl⟩
      intro hf
      exact hnr ⟨e, hf, hk, rfl⟩
    · right
      exact hH
    · left
      exact ⟨e, hto e he, hk, rfl⟩

/-- C1 as stated fails in a drop variant: after a capture that puts a pawn in white's
hand, the hand index `1 + 1548 * 44` of the new slot is active in the position after
the move, but it is neither active before the move nor in `added`; the king has not
moved and the record describes the board change. -/
theorem diff_equivalence_fails_with_drops :
    same_variant capture_before capture_after
      ∧ capture_after.square Color.WHITE capture_after.nnue_king
          = capture_before.square Color.WHITE capture_before.nnue_king
      ∧ record_describes large_params capture_before capture_after capture_record
      ∧ king_bitboard_ok large_params capture_before
      ∧ king_bitboard_ok large_params capture_after
      ∧ (AppendActiveIndices large_params capture_before Color.WHITE []).Nodup
      ∧ (68113 : Int) ∈ AppendActiveIndices large_params capture_after Color.WHITE []
      ∧ (68113 : Int) ∉ AppendActiveIndices large_params capture_before Color.WHITE []
      ∧ (68113 : Int) ∉
          (AppendChangedIndices large_params capture_after capture_record Color.WHITE [] []).2
      ∧ ¬ diff_equivalent large_params capture_before capture_after capture_record
            Color.WHITE := by
  have h1 : (68113 : Int) ∈ AppendActiveIndices large_params capture_after Color.WHITE [] := by
    decide
  have h2 : (68113 : Int) ∉ AppendActiveIndices large_params capture_before Color.WHITE [] := by
    decide
  have h3 : (68113 : Int) ∉
      (AppendChangedIndices large_params capture_after capture_record Color.WHITE [] []).2 := by
    decide
  refine ⟨⟨rfl, rfl, rfl, fun _ => rfl, rfl, rfl, rfl⟩, rfl, by decide, by decide, by decide,
    by decide, h1, h2, h3, ?_⟩
  intro h
  rcases (h 68113).mp h1 with ⟨hb, _⟩ | ha
  · exact h2 hb
  · exact h3 ha

/-- C1 amended, at the scenario of the specification: the pawn advances from e2 to e4
with the king on e1. -/
theorem diff_equivalence_witness :
    same_variant (pawn_position small_params 1) (pawn_position small_params 3)
      ∧ record_describes small_params (pawn_position small_params 1)
          (pawn_position small_params 3) (DirtyPiece.single ⟨Color.WHITE, PAWN⟩ 12 28)
      ∧ (AppendActiveIndices small_params (pawn_position small_params 1) Color.WHITE []).Nodup
      ∧ diff_equivalent small_params (pawn_position small_params 1)
          (pawn_position small_params 3) (DirtyPiece.single ⟨Color.WHITE, PAWN⟩ 12 28)
          Color.WHITE :=
  ⟨⟨rfl, rfl, rfl, fun _ => rfl, rfl, rfl, rfl⟩, by decide, by decide,
    diff_equivalence small_params (pawn_position small_params 1) (pawn_position small_params 3)
      (DirtyPiece.single ⟨Color.WHITE, PAWN⟩ 12 28) Color.WHITE
      ⟨rfl, rfl, rfl, fun _ => rfl, rfl, rfl, rfl⟩ rfl (fun _ _ => rfl) (by decide)
      (by decide) (by decide) (by decide)⟩

/-- C10. Drop-variant capture: in a drop-capable position where the owner holds
`n + 1` pieces of a type `pt` of the variant, `AppendActiveIndices` includes the
hand-piece index `make_index(perspective, owner, n, pt, ksq)` of the new slot, while
`AppendChangedIndices`, for any record, emits only board-piece indices: every element
of `removed` is the board-piece `make_index` of the from square of a non-king record
entry that has one, and every element of `added` that of a to square; an entry whose
to square is none adds nothing. -/
theorem hand_slot_active_not_changed (t : Params) (pos : Position) (dp : DirtyPiece)
    (p owner : Color) (pt : Nat) (n : Nat)
    (hdrops : pos.piece_drops = true) (hpt : pt ∈ pos.piece_types)
    (hcount : pos.count_in_hand owner pt = n + 1) :
    make_index_hand t p owner (n : Nat) pt (king_square t pos p) ∈ AppendActiveIndices t pos p []
      ∧ (∀ x ∈ (AppendChangedIndices t pos dp p [] []).1,
          ∃ i, i < dp.dirty_num ∧ type_of (dp.piece i) ≠ pos.nnue_king
            ∧ dp.from_sq i ≠ t.SQ_NONE
            ∧ x = make_index t pos p (dp.from_sq i) (dp.piece i) (king_square t pos p))
      ∧ (∀ x ∈ (AppendChangedIndices t pos dp p [] []).2,
          ∃ i, i < dp.dirty_num ∧ type_of (dp.piece i) ≠ pos.nnue_king
            ∧ dp.to_sq i ≠ t.SQ_NONE
            ∧ x = make_index t pos p (dp.to_sq i) (dp.piece i) (king_square t pos p)) := by
  refine ⟨?_, ?_, ?_⟩
  · rw [AppendActiveIndices_eq, List.nil_append, List.mem_append]
    right
    simp only [hdrops, if_true, hand_indices, List.mem_flatMap, List.mem_map, List.mem_range]
    refine ⟨owner, ?_, pt, hpt, n, by omega, rfl⟩
    cases owner <;> simp
  · intro x hx
    rw [AppendChangedIndices_eq] at hx
    simp only [List.nil_append, removed_spec, List.mem_map, List.mem_filter, List.mem_range,
      Bool.and_eq_true, decide_eq_true_eq] at hx
    obtain ⟨i, ⟨hi, hk, hf⟩, rfl⟩ := hx
    exact ⟨i, hi, hk, hf, rfl⟩
  · intro x hx
    rw [AppendChangedIndices_eq] at hx
    simp only [List.nil_append, added_spec, List.mem_map, List.mem_filter, List.mem_range,
      Bool.and_eq_true, decide_eq_true_eq] at hx
    obtain ⟨i, ⟨hi, hk, hf⟩, rfl⟩ := hx
    exact ⟨i, hi, hk, hf, rfl⟩

/-- C10, at the capture of the examples: white holds one pawn after the capture. -/
theorem hand_slot_active_not_changed_witness :
    capture_after.piece_drops = true
      ∧ PAWN ∈ capture_after.piece_types
      ∧ capture_after.count_in_hand Color.WHITE PAWN = 0 + 1
      ∧ make_index_hand large_params Color.WHITE Color.WHITE (0 : Nat) PAWN
            (king_square large_params capture_after Color.WHITE)
          ∈ AppendActiveIndices large_params capture_after Color.WHITE [] :=
  ⟨rfl, by decide, rfl,
    (hand_slot_active_not_changed large_params capture_after capture_record Color.WHITE
      Color.WHITE PAWN 0 rfl (by decide) rfl).1⟩

/-! ### C12: the hand-piece index -/

/-- C12. The hand-piece index depends on the owner only relative to the perspective:
`make_index(p, c, i, pt, ksq) = make_index(opposite(p), opposite(c), i, pt, ksq)`; the
index is the `IndexType` value of `i + hand_base[WHITE][pt] + SHOGI_PS_END * ksq` when
`c = p` and of `i + hand_base[BLACK][pt] + SHOGI_PS_END * ksq` otherwise, which is that
sum itself whenever the sum fits the 32 bits of `IndexType`. -/
theorem make_index_hand_relative (t : Params) (p c : Color) (i : Int) (pt : Nat) (ksq : Int) :
    make_index_hand t p c i pt ksq = make_index_hand t p.flip c.flip i pt ksq
      ∧ (c = p → make_index_hand t p c i pt ksq
          = toIndexType (i + t.shogi_kpp_hand_index Color.WHITE pt + t.SHOGI_PS_END * ksq))
      ∧ (c ≠ p → make_index_hand t p c i pt ksq
          = toIndexType (i + t.shogi_kpp_hand_index Color.BLACK pt + t.SHOGI_PS_END * ksq))
      ∧ (c = p → 0 ≤ i + t.shogi_kpp_hand_index Color.WHITE pt + t.SHOGI_PS_END * ksq →
          i + t.shogi_kpp_hand_index Color.WHITE pt + t.SHOGI_PS_END * ksq < 4294967296 →
          make_index_hand t p c i pt ksq
            = i + t.shogi_kpp_hand_index Color.WHITE pt + t.SHOGI_PS_END * ksq)
      ∧ (c ≠ p → 0 ≤ i + t.shogi_kpp_hand_index Color.BLACK pt + t.SHOGI_PS_END * ksq →
          i + t.shogi_kpp_hand_index Color.BLACK pt + t.SHOGI_PS_END * ksq < 4294967296 →
          make_index_hand t p c i pt ksq
            = i + t.shogi_kpp_hand_index Color.BLACK pt + t.SHOGI_PS_END * ksq) := by
  refine ⟨?_, ?_, ?_, ?_, ?_⟩
  · cases p <;> cases c <;> rfl
  · intro h
    simp [make_index_hand, h]
  · intro h
    simp [make_index_hand, h]
  · intro h h0 h1
    simp only [make_index_hand, h, if_true, toIndexType]
    exact Int.emod_eq_of_lt h0 h1
  · intro h h0 h1
    simp only [make_index_hand, h, if_false, toIndexType]
    exact Int.emod_eq_of_lt h0 h1

/-! ### C13 and C15: orientation in the standard architecture -/

/-- C13. The end-condition flag suppresses the flip: in the standard architecture, for
every valid square `s`, when the flag is active (the flag region of the second colour
meets the eighth rank) `orient(pos, BLACK, s) = orient(pos, WHITE, s)` is the compacted
square `s - rank(s) * (FILE_MAX - FILE_H)`; when the flag is not active,
`orient(pos, BLACK, s)` is the compaction of the square with file `max_file - file(s)`
and rank `max_rank - rank(s)`, that is `(max_file - file(s)) + 8 * (max_rank - rank(s))`. -/
theorem orient_flag (t : Params) (pos : Position) (s : Int)
    (harch : pos.nnue_architecture ≠ NnueArchitecture.NNUE_SHOGI)
    (hv : valid_standard_square t pos s) :
    (¬ flag_inactive t pos →
        orient t pos Color.BLACK s = orient t pos Color.WHITE s
          ∧ orient t pos Color.WHITE s = s - rank_of t s * (FILE_MAX t - FILE_H))
      ∧ (flag_inactive t pos →
        orient t pos Color.BLACK s
            = map_to_standard_board t
                ((pos.max_file - file_of t s) + t.FILE_NB * (pos.max_rank - rank_of t s))
          ∧ orient t pos Color.BLACK s
            = (pos.max_file - file_of t s) + 8 * (pos.max_rank - rank_of t s)) := by
  have hb : ¬ (Color.BLACK = Color.WHITE) := by decide
  constructor
  · intro hflag
    have hfl : (pos.capture_the_flag Color.BLACK &&& t.Rank8BB) ≠ 0 := hflag
    simp [orient, harch, hfl, map_to_standard_board]
  · intro hflag
    have hfl : ¬ (pos.capture_the_flag Color.BLACK &&& t.Rank8BB) ≠ 0 := by
      unfold flag_inactive at hflag
      simp [hflag]
    constructor
    · simp only [orient, harch, if_false, hb, hfl, or_self]
      rw [flip_both t pos s hv]
    · rw [orient_standard_eq t pos Color.BLACK s harch hv]
      simp [hflag]

/-- C13, on the 8x8 board of a 12-file build: the square a2 seen by the second colour,
no flag being active. -/
theorem orient_flag_witness :
    (pawn_position large_params 1).nnue_architecture ≠ NnueArchitecture.NNUE_SHOGI
      ∧ valid_standard_square large_params (pawn_position large_params 1) 12
      ∧ flag_inactive large_params (pawn_position large_params 1)
      ∧ orient large_params (pawn_position large_params 1) Color.BLACK 12
          = ((pawn_position large_params 1).max_file - file_of large_params 12)
              + 8 * ((pawn_position large_params 1).max_rank - rank_of large_params 12) :=
  ⟨by decide, by decide, by decide,
    ((orient_flag large_params (pawn_position large_params 1) 12 (by decide) (by decide)).2
      (by decide)).2⟩

/-- C15. Standard orientation lands on the 8x8 numbering injectively: in the standard
architecture, for a board with `max_file <= FILE_H` and `max_rank <= RANK_8`, for each
perspective and every valid square `s`, `orient(pos, perspective, s)` is `file' + 8 * rank'`
(file and rank of `s`, or their flips `max_file - file`, `max_rank - rank` for the second
colour without flag) and lies in `[0, 64)`, and `orient(pos, perspective, .)` is injective
on the valid squares. -/
theorem orient_standard_injective (t : Params) (pos : Position) (p : Color)
    (harch : pos.nnue_architecture ≠ NnueArchitecture.NNUE_SHOGI)
    (hF : pos.max_file ≤ FILE_H) (hR : pos.max_rank ≤ RANK_8) :
    (∀ s : Int, valid_standard_square t pos s →
        orient t pos p s
            = (if p = Color.WHITE ∨ ¬ flag_inactive t pos then file_of t s + 8 * rank_of t s
               else (pos.max_file - file_of t s) + 8 * (pos.max_rank - rank_of t s))
          ∧ 0 ≤ orient t pos p s ∧ orient t pos p s < 64)
      ∧ Set.InjOn (orient t pos p) {s | valid_standard_square t pos s} := by
  unfold FILE_H at hF
  unfold RANK_8 at hR
  have hbounds : ∀ s : Int, valid_standard_square t pos s →
      0 ≤ file_of t s ∧ file_of t s ≤ pos.max_file ∧ 0 ≤ rank_of t s
        ∧ rank_of t s ≤ pos.max_rank := by
    intro s hv
    have hN := FILE_NB_pos_of_valid t pos s hv
    obtain ⟨hs, hf, _, hr⟩ := hv
    obtain ⟨hf0, _, hr0⟩ := file_rank_bounds t s hs hN
    exact ⟨hf0, hf, hr0, hr⟩
  constructor
  · intro s hv
    obtain ⟨hf0, hf, hr0, hr⟩ := hbounds s hv
    rw [orient_standard_eq t pos p s harch hv]
    refine ⟨rfl, ?_, ?_⟩ <;> split <;> omega
  · intro s1 h1 s2 h2 heq
    simp only [Set.mem_setOf_eq] at h1 h2
    obtain ⟨hf1, hg1, hr1, hq1⟩ := hbounds s1 h1
    obtain ⟨hf2, hg2, hr2, hq2⟩ := hbounds s2 h2
    rw [orient_standard_eq t pos p s1 harch h1, orient_standard_eq t pos p s2 harch h2] at heq
    have hfr : file_of t s1 = file_of t s2 ∧ rank_of t s1 = rank_of t s2 := by
      split at heq <;> constructor <;> omega
    rw [← file_add_rank t s1, ← file_add_rank t s2, hfr.1, hfr.2]

/-- C15, on the 8x8 board of a 12-file build: the square a2 seen by the second colour. -/
theorem orient_standard_injective_witness :
    (pawn_position large_params 1).nnue_architecture ≠ NnueArchitecture.NNUE_SHOGI
      ∧ (pawn_position large_params 1).max_file ≤ FILE_H
      ∧ (pawn_position large_params 1).max_rank ≤ RANK_8
      ∧ valid_standard_square large_params (pawn_position large_params 1) 12
      ∧ 0 ≤ orient large_params (pawn_position large_params 1) Color.BLACK 12
      ∧ orient large_params (pawn_position large_params 1) Color.BLACK 12 < 64 :=
  ⟨by decide, by decide, by decide, by decide,
    ((orient_standard_injective large_params (pawn_position large_params 1) Color.BLACK
      (by decide) (by decide) (by decide)).1 12 (by decide)).2⟩

/-! ### C14: the changed lists only grow -/

/-- C14. `AppendChangedIndices` is append-only and bounded: the resulting `removed` and
`added` lists have the initial lists as prefixes, and each grows by at most the number
of non-king entries of the record, which is at most `dirty_num`. -/
theorem AppendChangedIndices_append_only (t : Params) (pos : Position) (dp : DirtyPiece)
    (p : Color) (removed0 added0 : IndexList) :
    removed0 <+: (AppendChangedIndices t pos dp p removed0 added0).1
      ∧ added0 <+: (AppendChangedIndices t pos dp p removed0 added0).2
      ∧ (AppendChangedIndices t pos dp p removed0 added0).1.length
          ≤ removed0.length + nonking_count pos dp
      ∧ (AppendChangedIndices t pos dp p removed0 added0).2.length
          ≤ added0.length + nonking_count pos dp
      ∧ nonking_count pos dp ≤ dp.dirty_num := by
  have hle : ∀ q : Nat → Bool,
      ((List.range dp.dirty_num).filter
          (fun i => decide (type_of (dp.piece i) ≠ pos.nnue_king) && q i)).length
        ≤ nonking_count pos dp := by
    intro q
    unfold nonking_count
    rw [← List.filter_filter]
    exact (List.Sublist.filter _ (List.filter_sublist _)).length_le
  rw [AppendChangedIndices_eq]
  refine ⟨List.prefix_append _ _, List.prefix_append _ _, ?_, ?_, ?_⟩
  · simp only [List.length_append, removed_spec, List.length_map]
    have := hle (fun i => decide (dp.from_sq i ≠ t.SQ_NONE))
    omega
  · simp only [List.length_append, added_spec, List.length_map]
    have := hle (fun i => decide (dp.to_sq i ≠ t.SQ_NONE))
    omega
  · unfold nonking_count
    have := List.length_filter_le
      (fun i => decide (type_of (dp.piece i) ≠ pos.nnue_king)) (List.range dp.dirty_num)
    simpa using this

/-! ### C11: king-square blocks -/

/-- An offset inside the block, added to the multiple of a king square that fits
`IndexType`, gives an index of the block of that king square. -/
theorem index_in_block (l b k : Int) (h0 : 0 ≤ l) (h1 : l < b) (hk : 0 ≤ k)
    (hfit : b * (k + 1) ≤ 4294967296) :
    b * k ≤ toIndexType (l + b * k) ∧ toIndexType (l + b * k) < b * (k + 1) := by
  have hb : 0 < b := by omega
  have h2 : 0 ≤ b * k := by positivity
  have h4 : b * (k + 1) = b * k + b := by ring
  unfold toIndexType
  generalize b * k = y at *
  generalize b * (k + 1) = z at *
  omega

/-- The hand-piece index as an offset plus a multiple of `SHOGI_PS_END`. -/
theorem make_index_hand_eq (t : Params) (p c : Color) (i : Int) (pt : Nat) (ksq : Int) :
    make_index_hand t p c i pt ksq
      = toIndexType (hand_offset t p c i pt + t.SHOGI_PS_END * ksq) := by
  rfl

/-- C11 as stated fails in the standard architecture: in a drop variant on the 8x8
board with the king on e1 (oriented square 4) and a pawn in hand, the hand index of
slot 0 is `1 + 1548 * 4 = 6193`; it is emitted by `AppendActiveIndices` but lies outside
the block `[641 * 4, 641 * 5)` of the king square, although its offset is inside the
block. -/
theorem hand_index_outside_block :
    drops_position.piece_drops = true
      ∧ drops_position.nnue_architecture ≠ NnueArchitecture.NNUE_SHOGI
      ∧ offsets_in_block small_params drops_position Color.WHITE
      ∧ king_square small_params drops_position Color.WHITE = 4
      ∧ block_size small_params drops_position = 641
      ∧ make_index_hand small_params Color.WHITE Color.WHITE 0 PAWN
          (king_square small_params drops_position Color.WHITE) = 6193
      ∧ (6193 : Int) ∈ AppendActiveIndices small_params drops_position Color.WHITE []
      ∧ ¬ ((6193 : Int) < block_size small_params drops_position
            * (king_square small_params drops_position Color.WHITE + 1)) := by
  decide

/-- C11, amended. The board-piece `make_index` adds the multiple `B * ksq` of the block
size `B` of the position's architecture to its offset, and the hand-piece `make_index`
always adds `SHOGI_PS_END * ksq`; in the shogi architecture these are the same multiple,
and there, the offsets of the active features being inside the block and the block of
the king square fitting `IndexType`, every index emitted by one `AppendActiveIndices`
call, board or hand, lies in the block `[B * ksq, B * (ksq + 1))` of the king square. -/
theorem index_block_multiplier (t : Params) (pos : Position) (p : Color) :
    (∀ (s : Int) (pc : Piece) (ksq : Int), make_index t pos p s pc ksq
        = toIndexType (board_offset t pos p s pc + block_size t pos * ksq))
      ∧ (∀ (c : Color) (i : Int) (pt : Nat) (ksq : Int), make_index_hand t p c i pt ksq
        = toIndexType (hand_offset t p c i pt + t.SHOGI_PS_END * ksq))
      ∧ (pos.nnue_architecture = NnueArchitecture.NNUE_SHOGI →
          block_size t pos = t.SHOGI_PS_END)
      ∧ (pos.nnue_architecture = NnueArchitecture.NNUE_SHOGI →
          offsets_in_block t pos p → 0 ≤ king_square t pos p →
          block_size t pos * (king_square t pos p + 1) ≤ 4294967296 →
          ∀ x ∈ AppendActiveIndices t pos p [],
            block_size t pos * king_square t pos p ≤ x
              ∧ x < block_size t pos * (king_square t pos p + 1)) := by
  refine ⟨?_, ?_, ?_, ?_⟩
  · intro s pc ksq
    exact make_index_eq t pos p s pc ksq
  · intro c i pt ksq
    rfl
  · intro harch
    simp [block_size, harch]
  · intro harch hoff hk0 hfit x hx
    have hB : block_size t pos = t.SHOGI_PS_END := by simp [block_size, harch]
    obtain ⟨hboard, hhand⟩ := hoff
    rw [AppendActiveIndices_eq, List.nil_append, List.mem_append] at hx
    rcases hx with hx | hx
    · unfold board_indices at hx
      rw [List.mem_map] at hx
      obtain ⟨s, hs, rfl⟩ := hx
      obtain ⟨h0, h1⟩ := hboard s hs
      rw [make_index_eq]
      exact index_in_block _ _ _ h0 h1 hk0 hfit
    · by_cases hd : pos.piece_drops = true
      · simp only [hd, if_true, hand_indices, List.mem_flatMap, List.mem_map] at hx
        obtain ⟨c, hc, pt, hpt, i, hi, rfl⟩ := hx
        obtain ⟨h0, h1⟩ := hhand c hc pt hpt i hi
        rw [make_index_hand_eq, ← hB]
        exact index_in_block _ _ _ h0 h1 hk0 hfit
      · simp [hd] at hx

/-- C11 amended, at the 9x9 position after the capture of the examples: the active
indices, board and hand, lie in the block of the king square 44. -/
theorem index_block_multiplier_witness :
    capture_after.nnue_architecture = NnueArchitecture.NNUE_SHOGI
      ∧ offsets_in_block large_params capture_after Color.WHITE
      ∧ 0 ≤ king_square large_params capture_after Color.WHITE
      ∧ block_size large_params capture_after
          * (king_square large_params capture_after Color.WHITE + 1) ≤ 4294967296
      ∧ ∀ x ∈ AppendActiveIndices large_params capture_after Color.WHITE [],
          block_size large_params capture_after
              * king_square large_params capture_after Color.WHITE ≤ x
            ∧ x < block_size large_params capture_after
              * (king_square large_params capture_after Color.WHITE + 1) :=
  ⟨by decide, by decide, by decide, by decide,
    (index_block_multiplier large_params capture_after Color.WHITE).2.2.2
      (by decide) (by decide) (by decide) (by decide)⟩

end HalfKP
